import Mathlib

/-!
# Verification of the graded polynomial algebra core (cr3bp normal-form engine)

A shallow embedding of the repository's graded polynomial algebra:

* the combinatorial index tables (`psi`, `clmo`, encode/decode) that address
  dense coefficient arrays of homogeneous polynomials in the six phase-space
  variables;
* the arithmetic kernels of `algorithms/center/polynomial/algebra.py`
  (`_poly_add`, `_poly_scale`, `_poly_mul`, `_poly_diff`, `_poly_integrate`,
  `_poly_poisson`, `_poly_clean`, `_poly_clean_inplace`);
* the linear-substitution routine of `algorithms/center/transforms.py`;
* the center-manifold restriction of `hiten/system/center.py`;
* the homological-equation solver of the Lie transform engine.

Coefficients live in an arbitrary decidable field `K`; floating-point
`complex128` arithmetic of the source is modelled by exact field arithmetic,
and `np.abs(x) <= tol` comparisons are modelled by an abstract boolean
predicate `absLe : K -> Rat -> Bool` supplied to the operations that use it.
Machine loops that accumulate into output buffers are modelled as folds over
explicit update lists; numba parallel thread-local scratch buffers reduce to
the same accumulated sums in exact arithmetic.
-/

namespace CR3BP

/-- Modelled from the spec: the index tables of
`algorithms/center/polynomial/base.py` (absent from the sources; only its
callers are available).  The spec prescribes, for every degree `d`, the
enumeration of all exponent tuples over `v` variables summing to `d` in a
fixed canonical order.  We enumerate by the first exponent, recursing on the
remaining variables; each entry of `clmo` in the source is the packed integer
code of one tuple, which we represent by the tuple itself. -/
def tuplesOfSum (v : ℕ) : ℕ → List (List ℕ) :=
  match v with
  | 0 => fun d => if d = 0 then [[]] else []
  | w + 1 => fun d =>
      (List.range (d + 1)).flatMap fun e =>
        (tuplesOfSum w (d - e)).map (fun t => e :: t)

/-- Modelled from the spec: the combinatorial size table `psi[v, d]` of
`init_index_tables`, computed by the stars-and-bars recurrence; `psi[v, d]`
counts the degree-`d` monomials in `v` variables and sizes every coefficient
array. -/
def psi (v : ℕ) : ℕ → ℕ :=
  match v with
  | 0 => fun d => if d = 0 then 1 else 0
  | w + 1 => fun d => ((List.range (d + 1)).map fun e => psi w (d - e)).sum

lemma mem_tuplesOfSum : ∀ (v : ℕ) (d : ℕ) (k : List ℕ),
    k ∈ tuplesOfSum v d ↔ k.length = v ∧ k.sum = d := by
  intro v
  induction v with
  | zero =>
      intro d k
      simp only [tuplesOfSum]
      by_cases hd : d = 0
      · subst hd
        constructor
        · intro hk
          simp at hk
          subst hk
          exact ⟨rfl, rfl⟩
        · rintro ⟨hlen, _⟩
          rw [List.length_eq_zero] at hlen
          subst hlen
          simp
      · constructor
        · intro hk
          simp [hd] at hk
        · rintro ⟨hlen, hsum⟩
          rw [List.length_eq_zero] at hlen
          subst hlen
          simp at hsum
          exact absurd hsum.symm hd
  | succ w ih =>
      intro d k
      simp only [tuplesOfSum, List.mem_flatMap, List.mem_map, List.mem_range]
      constructor
      · rintro ⟨e, he, t, ht, rfl⟩
        rcases (ih (d - e) t).mp ht with ⟨hlen, hsum⟩
        constructor
        · simp [hlen]
        · simp [hsum]
          omega
      · rintro ⟨hlen, hsum⟩
        cases k with
        | nil => simp at hlen
        | cons e t =>
            refine ⟨e, ?_, t, ?_, rfl⟩
            · simp at hsum
              omega
            · refine (ih (d - e) t).mpr ⟨by simpa using hlen, ?_⟩
              simp at hsum
              omega

lemma nodup_tuplesOfSum : ∀ (v : ℕ) (d : ℕ), (tuplesOfSum v d).Nodup := by
  intro v
  induction v with
  | zero =>
      intro d
      simp only [tuplesOfSum]
      by_cases hd : d = 0 <;> simp [hd]
  | succ w ih =>
      intro d
      simp only [tuplesOfSum]
      rw [List.nodup_flatMap]
      constructor
      · intro e _
        exact (ih (d - e)).map (fun a b h => by injection h)
      · have hpl : List.Pairwise (· < ·) (List.range (d + 1)) := List.pairwise_lt_range _
        refine hpl.imp ?_
        intro a b hab
        intro x hxa hxb
        rcases List.mem_map.mp hxa with ⟨t, _, rfl⟩
        rcases List.mem_map.mp hxb with ⟨t2, _, he⟩
        have : b = a := by injection he
        omega

lemma length_tuplesOfSum : ∀ (v : ℕ) (d : ℕ), (tuplesOfSum v d).length = psi v d := by
  intro v
  induction v with
  | zero =>
      intro d
      simp only [tuplesOfSum, psi]
      by_cases hd : d = 0 <;> simp [hd]
  | succ w ih =>
      intro d
      simp only [tuplesOfSum, psi, List.length_flatMap]
      congr 1
      refine List.map_congr_left ?_
      intro e _
      simp [ih]

/-- Modelled from the spec: `decode_multiindex(pos, degree, clmo)` of the
missing `base.py`: position `pos` in the degree-`degree` table yields the
exponent tuple stored there. -/
def decode_multiindex (pos degree : ℕ) : List ℕ :=
  (tuplesOfSum 6 degree).getD pos (List.replicate 6 0)

/-- Modelled from the spec: `encode_multiindex(k, degree, encode_dict_list)`
of the missing `base.py`: the reverse lookup from an exponent tuple to its
dense position, `-1` (here `none`) when the degree is outside the tables
built for maximum degree `N` or the tuple is absent from that degree's
reverse map. -/
def encode_multiindex (N : ℕ) (k : List ℕ) (degree : ℕ) : Option ℕ :=
  if degree ≤ N ∧ k ∈ tuplesOfSum 6 degree then
    some (@List.indexOf (List ℕ) instBEqOfDecidableEq k (tuplesOfSum 6 degree))
  else none

lemma decode_mem {pos degree : ℕ} (h : pos < psi 6 degree) :
    decode_multiindex pos degree ∈ tuplesOfSum 6 degree := by
  rw [decode_multiindex, List.getD_eq_getElem _ _ (by rw [length_tuplesOfSum]; exact h)]
  exact List.getElem_mem _

lemma length_decode {pos degree : ℕ} (h : pos < psi 6 degree) :
    (decode_multiindex pos degree).length = 6 :=
  ((mem_tuplesOfSum 6 degree _).mp (decode_mem h)).1

lemma sum_decode {pos degree : ℕ} (h : pos < psi 6 degree) :
    (decode_multiindex pos degree).sum = degree :=
  ((mem_tuplesOfSum 6 degree _).mp (decode_mem h)).2

lemma encode_decode {N pos degree : ℕ} (hN : degree ≤ N) (h : pos < psi 6 degree) :
    encode_multiindex N (decode_multiindex pos degree) degree = some pos := by
  have hlen : pos < (tuplesOfSum 6 degree).length := by
    rw [length_tuplesOfSum]; exact h
  rw [encode_multiindex, if_pos ⟨hN, decode_mem h⟩]
  congr 1
  rw [decode_multiindex, List.getD_eq_getElem _ _ hlen]
  exact List.indexOf_getElem (nodup_tuplesOfSum 6 degree) pos hlen

lemma encode_eq_some {N degree t : ℕ} {k : List ℕ}
    (h : encode_multiindex N k degree = some t) :
    degree ≤ N ∧ t < psi 6 degree ∧ decode_multiindex t degree = k := by
  rw [encode_multiindex] at h
  by_cases hc : degree ≤ N ∧ k ∈ tuplesOfSum 6 degree
  · rw [if_pos hc] at h
    have ht : t = @List.indexOf (List ℕ) instBEqOfDecidableEq k (tuplesOfSum 6 degree) := by
      injection h; omega
    subst ht
    have hlt : @List.indexOf (List ℕ) instBEqOfDecidableEq k (tuplesOfSum 6 degree) < (tuplesOfSum 6 degree).length :=
      List.indexOf_lt_length.mpr hc.2
    refine ⟨hc.1, by rwa [length_tuplesOfSum] at hlt, ?_⟩
    rw [decode_multiindex, List.getD_eq_getElem _ _ hlt]
    exact List.getElem_indexOf hlt
  · rw [if_neg hc] at h
    exact absurd h (by simp)

lemma encode_of_mem {N degree : ℕ} {k : List ℕ} (hN : degree ≤ N)
    (hk : k ∈ tuplesOfSum 6 degree) :
    encode_multiindex N k degree = some (@List.indexOf (List ℕ) instBEqOfDecidableEq k (tuplesOfSum 6 degree)) := by
  rw [encode_multiindex, if_pos ⟨hN, hk⟩]

lemma decode_injective {degree i j : ℕ} (hi : i < psi 6 degree) (hj : j < psi 6 degree)
    (h : decode_multiindex i degree = decode_multiindex j degree) : i = j := by
  have hi' : i < (tuplesOfSum 6 degree).length := by rwa [length_tuplesOfSum]
  have hj' : j < (tuplesOfSum 6 degree).length := by rwa [length_tuplesOfSum]
  rw [decode_multiindex, decode_multiindex, List.getD_eq_getElem _ _ hi',
    List.getD_eq_getElem _ _ hj'] at h
  exact (List.Nodup.getElem_inj_iff (nodup_tuplesOfSum 6 degree)).mp h

/-- Extensionality for length-6 exponent tuples through `getD`. -/
lemma list6_ext {a b : List ℕ} (ha : a.length = 6) (hb : b.length = 6)
    (h : ∀ m, m < 6 → a.getD m 0 = b.getD m 0) : a = b := by
  refine List.ext_getElem (by omega) ?_
  intro n h1 h2
  have := h n (by omega)
  rwa [List.getD_eq_getElem _ _ h1, List.getD_eq_getElem _ _ h2] at this

/-- Sum of a list as a `Finset.range` sum over `getD` positions. -/
lemma sum_eq_sum_range {M : Type} [AddCommMonoid M] :
    ∀ (a : List M), a.sum = ∑ m ∈ Finset.range a.length, a.getD m 0 := by
  intro a
  induction a with
  | nil => simp
  | cons x t ih =>
      rw [List.sum_cons, ih, List.length_cons, Finset.sum_range_succ']
      simp only [List.getD_cons_succ, List.getD_cons_zero]
      exact add_comm _ _

/-- `List.range` map-sum as a `Finset.range` sum. -/
lemma range_map_sum {M : Type} [AddCommMonoid M] (n : ℕ) (f : ℕ → M) :
    ((List.range n).map f).sum = ∑ m ∈ Finset.range n, f m := by
  induction n with
  | zero => simp
  | succ w ih => rw [List.range_succ, List.map_append, List.sum_append,
      Finset.sum_range_succ, ih]; simp

/-- Mapped sums distribute over `flatMap`. -/
lemma sum_map_flatMap {α β M : Type} [AddCommMonoid M]
    (g : β → M) (f : α → List β) :
    ∀ (l : List α), ((l.flatMap f).map g).sum = (l.map fun a => ((f a).map g).sum).sum := by
  intro l
  induction l with
  | nil => simp
  | cons x t ih => rw [List.flatMap_cons, List.map_append, List.sum_append, ih,
      List.map_cons, List.sum_cons]

section Algebra

variable {K : Type} [Field K] [DecidableEq K]

/-- One accumulation step `r[idx] += v` of a numba kernel; `List.set` is a
no-op out of range, matching a contribution that never lands. -/
def addAt (r : List K) (idx : ℕ) (v : K) : List K :=
  r.set idx (r.getD idx 0 + v)

/-- A full accumulation loop: fold the update list into the buffer. -/
def applyUpdates (init : List K) (us : List (ℕ × K)) : List K :=
  us.foldl (fun a u => addAt a u.1 u.2) init

lemma length_addAt (r : List K) (idx : ℕ) (v : K) :
    (addAt r idx v).length = r.length := by
  rw [addAt, List.length_set]

lemma length_applyUpdates (us : List (ℕ × K)) :
    ∀ (init : List K), (applyUpdates init us).length = init.length := by
  induction us with
  | nil => intro init; rfl
  | cons u t ih =>
      intro init
      rw [applyUpdates, List.foldl_cons]
      have := ih (addAt init u.1 u.2)
      rw [applyUpdates] at this
      rw [this, length_addAt]

lemma getD_addAt (init : List K) (i t : ℕ) (v : K) (ht : t < init.length) :
    (addAt init i v).getD t 0 = if i = t then init.getD t 0 + v else init.getD t 0 := by
  have hts : t < (init.set i (init.getD i 0 + v)).length := by
    rw [List.length_set]; exact ht
  rw [addAt, List.getD_eq_getElem _ _ hts, List.getElem_set]
  by_cases h : i = t
  · subst h
    rw [if_pos rfl, if_pos rfl, List.getD_eq_getElem _ _ ht]
  · rw [if_neg h, if_neg h, List.getD_eq_getElem _ _ ht]

lemma getD_applyUpdates (us : List (ℕ × K)) :
    ∀ (init : List K) (t : ℕ), t < init.length →
    (applyUpdates init us).getD t 0
      = init.getD t 0 + ((us.map fun u => if u.1 = t then u.2 else 0).sum) := by
  induction us with
  | nil => intro init t _; simp [applyUpdates]
  | cons u tl ih =>
      intro init t ht
      rw [applyUpdates, List.foldl_cons]
      have h2 : t < (addAt init u.1 u.2).length := by rw [length_addAt]; exact ht
      have := ih (addAt init u.1 u.2) t h2
      rw [applyUpdates] at this
      rw [this, getD_addAt init u.1 t u.2 ht, List.map_cons, List.sum_cons]
      by_cases h : u.1 = t
      · rw [if_pos h, if_pos h]; ring
      · rw [if_neg h, if_neg h]; ring

/-- Exponent-tuple sum `ks[m] = ki[m] + kj[m]`, the explicit length-6 loop of
`_poly_mul` in `algorithms/center/polynomial/algebra.py`. -/
def vecAdd (a b : List ℕ) : List ℕ :=
  (List.range 6).map fun m => a.getD m 0 + b.getD m 0

lemma length_vecAdd (a b : List ℕ) : (vecAdd a b).length = 6 := by
  rw [vecAdd, List.length_map, List.length_range]

lemma getD_vecAdd (a b : List ℕ) {m : ℕ} (hm : m < 6) :
    (vecAdd a b).getD m 0 = a.getD m 0 + b.getD m 0 := by
  have hm2 : m < (vecAdd a b).length := by rw [length_vecAdd]; exact hm
  rw [List.getD_eq_getElem _ _ hm2]
  simp only [vecAdd]
  rw [List.getElem_map, List.getElem_range]

lemma vecAdd_comm (a b : List ℕ) : vecAdd a b = vecAdd b a := by
  unfold vecAdd
  refine List.map_congr_left ?_
  intro m _
  omega

lemma sum_vecAdd {a b : List ℕ} (ha : a.length = 6) (hb : b.length = 6) :
    (vecAdd a b).sum = a.sum + b.sum := by
  rw [sum_eq_sum_range (vecAdd a b), sum_eq_sum_range a, sum_eq_sum_range b,
    length_vecAdd, ha, hb, ← Finset.sum_add_distrib]
  refine Finset.sum_congr rfl ?_
  intro m hm
  exact getD_vecAdd a b (Finset.mem_range.mp hm)

/-- The update stream generated by the two nested loops of `_poly_mul`
(`algorithms/center/polynomial/algebra.py`, lines 66-131): skip zero
coefficients of either factor, add the exponent tuples, and accumulate
`p[i]*q[j]` at the encoded position unless encoding reports `-1`. -/
def mul_updates (N : ℕ) (p : List K) (deg_p : ℕ) (q : List K) (deg_q : ℕ) :
    List (ℕ × K) :=
  (List.range p.length).flatMap fun i =>
    if p.getD i 0 = 0 then [] else
      (List.range q.length).flatMap fun j =>
        if q.getD j 0 = 0 then [] else
          match encode_multiindex N
              (vecAdd (decode_multiindex i deg_p) (decode_multiindex j deg_q))
              (deg_p + deg_q) with
          | some idx => [(idx, p.getD i 0 * q.getD j 0)]
          | none => []

/-- `_poly_mul` of `algorithms/center/polynomial/algebra.py`: allocate the
degree-`(deg_p+deg_q)` output of length `psi[N_VARS, deg_p+deg_q]` and run the
accumulation loops (the per-thread scratch buffers and their final reduction
amount to accumulating all contributions into one buffer). -/
def _poly_mul (N : ℕ) (p : List K) (deg_p : ℕ) (q : List K) (deg_q : ℕ) : List K :=
  applyUpdates (List.replicate (psi 6 (deg_p + deg_q)) 0) (mul_updates N p deg_p q deg_q)

lemma length_poly_mul (N : ℕ) (p : List K) (deg_p : ℕ) (q : List K) (deg_q : ℕ) :
    (_poly_mul N p deg_p q deg_q).length = psi 6 (deg_p + deg_q) := by
  rw [_poly_mul, length_applyUpdates, List.length_replicate]

lemma poly_mul_getD (N : ℕ) (p : List K) (deg_p : ℕ) (q : List K) (deg_q : ℕ)
    (t : ℕ) (ht : t < psi 6 (deg_p + deg_q)) :
    (_poly_mul N p deg_p q deg_q).getD t 0
      = ∑ i ∈ Finset.range p.length, ∑ j ∈ Finset.range q.length,
          (if encode_multiindex N
              (vecAdd (decode_multiindex i deg_p) (decode_multiindex j deg_q))
              (deg_p + deg_q) = some t
           then p.getD i 0 * q.getD j 0 else 0) := by
  have hlen : t < (List.replicate (psi 6 (deg_p + deg_q)) (0 : K)).length := by
    rw [List.length_replicate]; exact ht
  rw [_poly_mul, getD_applyUpdates _ _ _ hlen, List.getD_eq_getElem _ _ hlen,
    List.getElem_replicate, zero_add, mul_updates, sum_map_flatMap, range_map_sum]
  refine Finset.sum_congr rfl ?_
  intro i _
  by_cases hp : p.getD i 0 = 0
  · rw [if_pos hp]
    simp only [List.map_nil, List.sum_nil]
    symm
    refine Finset.sum_eq_zero ?_
    intro j _
    rw [hp, zero_mul, ite_self]
  · rw [if_neg hp, sum_map_flatMap, range_map_sum]
    refine Finset.sum_congr rfl ?_
    intro j _
    by_cases hq : q.getD j 0 = 0
    · rw [if_pos hq]
      simp only [List.map_nil, List.sum_nil]
      symm
      rw [hq, mul_zero, ite_self]
    · rw [if_neg hq]
      rcases henc : encode_multiindex N
          (vecAdd (decode_multiindex i deg_p) (decode_multiindex j deg_q))
          (deg_p + deg_q) with _ | idx
      · simp
      · by_cases hit : idx = t
        · subst hit
          simp
        · have : ¬ (some idx = some t) := by
            intro hcon; injection hcon; omega
          simp [hit, this]

lemma encode_of_table_overflow {N degree : ℕ} (h : N < degree) (k : List ℕ) :
    encode_multiindex N k degree = none := by
  rw [encode_multiindex, if_neg]
  rintro ⟨hle, -⟩
  omega

lemma decode_zero_zero : decode_multiindex 0 0 = List.replicate 6 0 := by rfl

lemma getD_replicate_zero (n m : ℕ) : (List.replicate n (0 : ℕ)).getD m 0 = 0 := by
  rcases Nat.lt_or_ge m n with hm | hm
  · rw [List.getD_eq_getElem _ _ (by simpa using hm), List.getElem_replicate]
  · rw [List.getD_eq_default _ _ (by simpa using hm)]

lemma vecAdd_decode_zero {a : List ℕ} (ha : a.length = 6) :
    vecAdd a (decode_multiindex 0 0) = a := by
  refine list6_ext (length_vecAdd _ _) ha ?_
  intro m hm
  rw [getD_vecAdd _ _ hm, decode_zero_zero, getD_replicate_zero, Nat.add_zero]

lemma poly_mul_comm (N : ℕ) (p : List K) (deg_p : ℕ) (q : List K) (deg_q : ℕ) :
    _poly_mul N p deg_p q deg_q = _poly_mul N q deg_q p deg_p := by
  refine List.ext_getElem ?_ ?_
  · rw [length_poly_mul, length_poly_mul, Nat.add_comm]
  · intro t h1 h2
    have ht : t < psi 6 (deg_p + deg_q) := by rwa [length_poly_mul] at h1
    have ht2 : t < psi 6 (deg_q + deg_p) := by rwa [length_poly_mul] at h2
    rw [← List.getD_eq_getElem _ 0 h1, ← List.getD_eq_getElem _ 0 h2,
      poly_mul_getD _ _ _ _ _ _ ht, poly_mul_getD _ _ _ _ _ _ ht2, Finset.sum_comm]
    refine Finset.sum_congr rfl fun j _ => Finset.sum_congr rfl fun i _ => ?_
    rw [vecAdd_comm, mul_comm, Nat.add_comm deg_p deg_q]

/-- C1.  `_poly_mul` returns the degree-`(deg_p+deg_q)` array of length
`psi[N_VARS, deg_p+deg_q]`; its coefficient at position `t` is the
convolution sum of `p[i]*q[j]` over all pairs whose exponent tuples add to
the tuple decoded at `t` (pairs whose exponent sum encodes to `-1` are
silently dropped: they appear in no output position, and when the combined
degree exceeds the table every pair is dropped and the zero array is
returned rather than an error). -/
theorem poly_mul_convolution (N : ℕ) (p : List K) (deg_p : ℕ) (q : List K)
    (deg_q : ℕ) (hp : p.length = psi 6 deg_p) (hq : q.length = psi 6 deg_q) :
    (_poly_mul N p deg_p q deg_q).length = psi 6 (deg_p + deg_q)
    ∧ (∀ t, t < psi 6 (deg_p + deg_q) →
        (_poly_mul N p deg_p q deg_q).getD t 0
          = ∑ i ∈ Finset.range p.length, ∑ j ∈ Finset.range q.length,
              (if encode_multiindex N
                  (vecAdd (decode_multiindex i deg_p) (decode_multiindex j deg_q))
                  (deg_p + deg_q) = some t
               then p.getD i 0 * q.getD j 0 else 0))
    ∧ (deg_p + deg_q ≤ N → ∀ t, t < psi 6 (deg_p + deg_q) →
        (_poly_mul N p deg_p q deg_q).getD t 0
          = ∑ i ∈ Finset.range p.length, ∑ j ∈ Finset.range q.length,
              (if vecAdd (decode_multiindex i deg_p) (decode_multiindex j deg_q)
                  = decode_multiindex t (deg_p + deg_q)
               then p.getD i 0 * q.getD j 0 else 0))
    ∧ (N < deg_p + deg_q →
        _poly_mul N p deg_p q deg_q = List.replicate (psi 6 (deg_p + deg_q)) 0) := by
  refine ⟨length_poly_mul N p deg_p q deg_q, fun t ht => poly_mul_getD N p deg_p q deg_q t ht,
    ?_, ?_⟩
  · intro hNr t ht
    rw [poly_mul_getD N p deg_p q deg_q t ht]
    refine Finset.sum_congr rfl fun i hi => Finset.sum_congr rfl fun j hj => ?_
    have hi2 : i < psi 6 deg_p := by rw [← hp]; exact Finset.mem_range.mp hi
    have hj2 : j < psi 6 deg_q := by rw [← hq]; exact Finset.mem_range.mp hj
    refine if_congr ?_ rfl rfl
    constructor
    · intro henc
      exact (encode_eq_some henc).2.2.symm
    · intro hsum
      rw [hsum]
      exact encode_decode hNr ht
  · intro hNr
    refine List.ext_getElem (by rw [length_poly_mul, List.length_replicate]) ?_
    intro t h1 h2
    have ht : t < psi 6 (deg_p + deg_q) := by rwa [length_poly_mul] at h1
    rw [← List.getD_eq_getElem _ 0 h1, poly_mul_getD N p deg_p q deg_q t ht,
      List.getElem_replicate]
    refine Finset.sum_eq_zero fun i _ => Finset.sum_eq_zero fun j _ => ?_
    rw [encode_of_table_overflow hNr]
    simp

/-- Witness for C1 at a concrete input. -/
theorem poly_mul_convolution_witness :
    ([(2 : ℚ)].length = psi 6 0 ∧ [(3 : ℚ)].length = psi 6 0)
    ∧ ((_poly_mul 0 [(2 : ℚ)] 0 [(3 : ℚ)] 0).length = psi 6 (0 + 0)
      ∧ (∀ t, t < psi 6 (0 + 0) →
          (_poly_mul 0 [(2 : ℚ)] 0 [(3 : ℚ)] 0).getD t 0
            = ∑ i ∈ Finset.range [(2 : ℚ)].length, ∑ j ∈ Finset.range [(3 : ℚ)].length,
                (if encode_multiindex 0
                    (vecAdd (decode_multiindex i 0) (decode_multiindex j 0)) (0 + 0)
                    = some t
                 then [(2 : ℚ)].getD i 0 * [(3 : ℚ)].getD j 0 else 0))
      ∧ (0 + 0 ≤ 0 → ∀ t, t < psi 6 (0 + 0) →
          (_poly_mul 0 [(2 : ℚ)] 0 [(3 : ℚ)] 0).getD t 0
            = ∑ i ∈ Finset.range [(2 : ℚ)].length, ∑ j ∈ Finset.range [(3 : ℚ)].length,
                (if vecAdd (decode_multiindex i 0) (decode_multiindex j 0)
                    = decode_multiindex t (0 + 0)
                 then [(2 : ℚ)].getD i 0 * [(3 : ℚ)].getD j 0 else 0))
      ∧ (0 < 0 + 0 →
          _poly_mul 0 [(2 : ℚ)] 0 [(3 : ℚ)] 0 = List.replicate (psi 6 (0 + 0)) 0)) :=
  ⟨⟨by decide, by decide⟩,
    poly_mul_convolution 0 [(2 : ℚ)] 0 [(3 : ℚ)] 0 (by decide) (by decide)⟩

/-- C6.  Multiplying a degree-`d` polynomial by the degree-0 unit polynomial
`[1]` with `_poly_mul` is the identity. -/
theorem poly_mul_one (N d : ℕ) (p : List K) (hd : d ≤ N) (hp : p.length = psi 6 d) :
    _poly_mul N p d [1] 0 = p := by
  refine List.ext_getElem ?_ ?_
  · rw [length_poly_mul, Nat.add_zero, hp]
  · intro t h1 h2
    have ht : t < psi 6 (d + 0) := by rwa [length_poly_mul] at h1
    have ht' : t < psi 6 d := by rwa [Nat.add_zero] at ht
    rw [← List.getD_eq_getElem _ 0 h1, poly_mul_getD N p d [1] 0 t ht]
    have hlen1 : ([(1 : K)]).length = 1 := rfl
    rw [hlen1]
    have hstep : ∀ i ∈ Finset.range p.length,
        (∑ j ∈ Finset.range 1,
          (if encode_multiindex N
              (vecAdd (decode_multiindex i d) (decode_multiindex j 0)) (d + 0) = some t
           then p.getD i 0 * ([(1 : K)]).getD j 0 else 0))
          = (if i = t then p.getD i 0 else 0) := by
      intro i hi
      have hi2 : i < psi 6 d := by rw [← hp]; exact Finset.mem_range.mp hi
      rw [Finset.sum_range_one]
      have hq1 : ([(1 : K)]).getD 0 0 = 1 := rfl
      rw [hq1, mul_one, vecAdd_decode_zero (length_decode hi2), Nat.add_zero,
        encode_decode hd hi2]
      by_cases hit : i = t
      · subst hit
        rw [if_pos rfl, if_pos rfl]
      · rw [if_neg (by intro hcon; injection hcon; omega), if_neg hit]
    rw [Finset.sum_congr rfl hstep, Finset.sum_eq_single t
      (fun b _ hb => by rw [if_neg hb]) (fun hnt => by
        rw [hp] at hnt
        exact absurd (Finset.mem_range.mpr ht') hnt), if_pos rfl,
      List.getD_eq_getElem _ 0 h2]

/-- Witness for C6 at a concrete input. -/
theorem poly_mul_one_witness :
    (1 ≤ 2 ∧ ([(5 : ℚ), 7, 0, 0, 0, 11]).length = psi 6 1)
    ∧ _poly_mul 2 [(5 : ℚ), 7, 0, 0, 0, 11] 1 [1] 0 = [(5 : ℚ), 7, 0, 0, 0, 11] :=
  ⟨⟨by decide, by decide⟩,
    poly_mul_one 2 1 [(5 : ℚ), 7, 0, 0, 0, 11] (by decide) (by decide)⟩

end Algebra

section SetHelpers

lemma getD_set_self {α : Type} {l : List α} {i : ℕ} (h : i < l.length) (x d : α) :
    (l.set i x).getD i d = x := by
  rw [List.getD_eq_getElem _ _ (by rw [List.length_set]; exact h), List.getElem_set_self]

lemma getD_set_ne {α : Type} {l : List α} {i j : ℕ} (h : i ≠ j) (x d : α) :
    (l.set i x).getD j d = l.getD j d := by
  rcases Nat.lt_or_ge j l.length with hj | hj
  · rw [List.getD_eq_getElem _ _ (by rw [List.length_set]; exact hj),
      List.getD_eq_getElem _ _ hj, List.getElem_set_ne h]
  · rw [List.getD_eq_default _ _ (by rw [List.length_set]; exact hj),
      List.getD_eq_default _ _ hj]

lemma set_getD_self {α : Type} {l : List α} {i : ℕ} (h : i < l.length) (d : α) :
    l.set i (l.getD i d) = l := by
  refine List.ext_getElem (by rw [List.length_set]) ?_
  intro n h1 h2
  rw [List.getElem_set]
  by_cases hin : i = n
  · subst hin
    rw [if_pos rfl, List.getD_eq_getElem _ _ h]
  · rw [if_neg hin]

lemma sum_set_nat : ∀ (l : List ℕ) (i x : ℕ), i < l.length →
    (l.set i x).sum + l.getD i 0 = l.sum + x := by
  intro l
  induction l with
  | nil => intro i x h; simp at h
  | cons a t ih =>
      intro i x h
      cases i with
      | zero => simp [List.set]; omega
      | succ m =>
          have hm : m < t.length := by simpa using h
          have := ih m x hm
          simp only [List.set, List.sum_cons, List.getD_cons_succ]
          omega

end SetHelpers

section Diff

variable {K : Type} [Field K] [DecidableEq K]

/-- The update stream generated by the loop of `_poly_diff`
(`algorithms/center/polynomial/algebra.py`, lines 133-202): skip zero
coefficients, skip terms with zero exponent in `var`, decrement the exponent,
and accumulate `coeff * exp` at the encoded position unless encoding reports
`-1`.  (The source's `scratch_exp[var] = exp` write is dead: that buffer is
never read.) -/
def diff_updates (N : ℕ) (p : List K) (var degree : ℕ) : List (ℕ × K) :=
  (List.range p.length).flatMap fun i =>
    if p.getD i 0 = 0 then [] else
      if (decode_multiindex i degree).getD var 0 = 0 then [] else
        match encode_multiindex N
            ((decode_multiindex i degree).set var
              ((decode_multiindex i degree).getD var 0 - 1)) (degree - 1) with
        | some idx => [(idx, p.getD i 0 * (((decode_multiindex i degree).getD var 0 : ℕ) : K))]
        | none => []

/-- `_poly_diff` of `algorithms/center/polynomial/algebra.py`: the partial
derivative with respect to variable `var`; a degree-0 input returns the zero
degree-0 array, otherwise the loop accumulates into a fresh
degree-`(degree-1)` buffer. -/
def _poly_diff (N : ℕ) (p : List K) (var degree : ℕ) : List K :=
  if degree = 0 then List.replicate (psi 6 0) 0
  else applyUpdates (List.replicate (psi 6 (degree - 1)) 0) (diff_updates N p var degree)

lemma length_poly_diff (N : ℕ) (p : List K) (var degree : ℕ) (h : 1 ≤ degree) :
    (_poly_diff N p var degree).length = psi 6 (degree - 1) := by
  rw [_poly_diff, if_neg (by omega), length_applyUpdates, List.length_replicate]

lemma poly_diff_getD (N : ℕ) (p : List K) (var degree t s : ℕ)
    (hvar : var < 6) (hdeg : 1 ≤ degree) (hN : degree - 1 ≤ N)
    (hp : p.length = psi 6 degree) (ht : t < psi 6 (degree - 1))
    (hs : s < psi 6 degree)
    (hk : decode_multiindex s degree
      = (decode_multiindex t (degree - 1)).set var
          ((decode_multiindex t (degree - 1)).getD var 0 + 1)) :
    (_poly_diff N p var degree).getD t 0
      = (((decode_multiindex t (degree - 1)).getD var 0 + 1 : ℕ) : K) * p.getD s 0 := by
  have hlen : t < (List.replicate (psi 6 (degree - 1)) (0 : K)).length := by
    rw [List.length_replicate]; exact ht
  have hm6 : (decode_multiindex t (degree - 1)).length = 6 := length_decode ht
  have hexp_s : (decode_multiindex s degree).getD var 0
      = (decode_multiindex t (degree - 1)).getD var 0 + 1 := by
    rw [hk, getD_set_self (by rw [hm6]; exact hvar)]
  rw [_poly_diff, if_neg (by omega), getD_applyUpdates _ _ _ hlen,
    List.getD_eq_getElem _ _ hlen, List.getElem_replicate, zero_add, diff_updates,
    sum_map_flatMap, range_map_sum]
  rw [Finset.sum_eq_single s ?_ ?_]
  · by_cases hps : p.getD s 0 = 0
    · rw [if_pos hps, hps, mul_zero]
      simp
    · rw [if_neg hps, if_neg (by rw [hexp_s]; omega)]
      have hset : (decode_multiindex s degree).set var
          ((decode_multiindex s degree).getD var 0 - 1)
          = decode_multiindex t (degree - 1) := by
        rw [hexp_s, Nat.add_sub_cancel, hk, List.set_set,
          set_getD_self (by rw [hm6]; exact hvar)]
      rw [hset, encode_decode hN ht]
      rw [hexp_s]
      simp [mul_comm]
  · intro i hi hine
    have hi2 : i < psi 6 degree := by rw [← hp]; exact Finset.mem_range.mp hi
    by_cases hpi : p.getD i 0 = 0
    · rw [if_pos hpi]
      simp
    · rw [if_neg hpi]
      by_cases hexp : (decode_multiindex i degree).getD var 0 = 0
      · rw [if_pos hexp]
        simp
      · rw [if_neg hexp]
        rcases henc : encode_multiindex N
            ((decode_multiindex i degree).set var
              ((decode_multiindex i degree).getD var 0 - 1)) (degree - 1) with _ | idx
        · simp
        · have hdec := (encode_eq_some henc).2.2
          by_cases hidx : idx = t
          · exfalso
            rw [hidx] at hdec
            have hvlen : var < (decode_multiindex i degree).length := by
              rw [length_decode hi2]; exact hvar
            have hki : decode_multiindex i degree
                = (decode_multiindex t (degree - 1)).set var
                    ((decode_multiindex t (degree - 1)).getD var 0 + 1) := by
              rw [hdec, getD_set_self hvlen, List.set_set,
                Nat.sub_add_cancel (by omega), set_getD_self hvlen]
            exact hine (decode_injective hi2 hs (hki.trans hk.symm))
          · simp only [List.map_cons, List.map_nil, List.sum_cons, List.sum_nil,
              if_neg hidx, add_zero]
  · intro hns
    exfalso
    rw [hp] at hns
    exact hns (Finset.mem_range.mpr hs)

end Diff

section Integrate

variable {K : Type} [Field K] [DecidableEq K]

/-- The update stream generated by the loop of `_poly_integrate`
(`algorithms/center/polynomial/algebra.py`, lines 466-517): skip zero
coefficients, increment the exponent of `var`, and accumulate
`coeff / (k[var]+1)` at the encoded position unless encoding reports
`-1`. -/
def int_updates (N : ℕ) (p : List K) (var degree : ℕ) : List (ℕ × K) :=
  (List.range p.length).flatMap fun i =>
    if p.getD i 0 = 0 then [] else
      match encode_multiindex N
          ((decode_multiindex i degree).set var
            ((decode_multiindex i degree).getD var 0 + 1)) (degree + 1) with
      | some idx => [(idx, p.getD i 0 / ((decode_multiindex i degree).getD var 0 + 1 : K))]
      | none => []

/-- `_poly_integrate` of `algorithms/center/polynomial/algebra.py`: the
antiderivative with respect to variable `var`, a degree-`(degree+1)` array
with zero integration constant. -/
def _poly_integrate (N : ℕ) (p : List K) (var degree : ℕ) : List K :=
  applyUpdates (List.replicate (psi 6 (degree + 1)) 0) (int_updates N p var degree)

lemma length_poly_integrate (N : ℕ) (p : List K) (var degree : ℕ) :
    (_poly_integrate N p var degree).length = psi 6 (degree + 1) := by
  rw [_poly_integrate, length_applyUpdates, List.length_replicate]

lemma poly_integrate_getD (N : ℕ) (p : List K) (var degree t s : ℕ)
    (hvar : var < 6) (hN : degree + 1 ≤ N) (hp : p.length = psi 6 degree)
    (ht : t < psi 6 (degree + 1)) (hs : s < psi 6 degree)
    (hpos : 1 ≤ (decode_multiindex t (degree + 1)).getD var 0)
    (hk : decode_multiindex s degree
      = (decode_multiindex t (degree + 1)).set var
          ((decode_multiindex t (degree + 1)).getD var 0 - 1)) :
    (_poly_integrate N p var degree).getD t 0
      = p.getD s 0 / ((decode_multiindex s degree).getD var 0 + 1 : K) := by
  have hlen : t < (List.replicate (psi 6 (degree + 1)) (0 : K)).length := by
    rw [List.length_replicate]; exact ht
  have hμ6 : (decode_multiindex t (degree + 1)).length = 6 := length_decode ht
  have hexp_s : (decode_multiindex s degree).getD var 0
      = (decode_multiindex t (degree + 1)).getD var 0 - 1 := by
    rw [hk, getD_set_self (by rw [hμ6]; exact hvar)]
  rw [_poly_integrate, getD_applyUpdates _ _ _ hlen,
    List.getD_eq_getElem _ _ hlen, List.getElem_replicate, zero_add, int_updates,
    sum_map_flatMap, range_map_sum]
  rw [Finset.sum_eq_single s ?_ ?_]
  · by_cases hps : p.getD s 0 = 0
    · rw [if_pos hps, hps, zero_div]
      simp
    · rw [if_neg hps]
      have hset : (decode_multiindex s degree).set var
          ((decode_multiindex s degree).getD var 0 + 1)
          = decode_multiindex t (degree + 1) := by
        rw [hexp_s, Nat.sub_add_cancel hpos, hk, List.set_set,
          set_getD_self (by rw [hμ6]; exact hvar)]
      rw [hset, encode_decode hN ht]
      simp
  · intro i hi hine
    have hi2 : i < psi 6 degree := by rw [← hp]; exact Finset.mem_range.mp hi
    by_cases hpi : p.getD i 0 = 0
    · rw [if_pos hpi]
      simp
    · rw [if_neg hpi]
      rcases henc : encode_multiindex N
          ((decode_multiindex i degree).set var
            ((decode_multiindex i degree).getD var 0 + 1)) (degree + 1) with _ | idx
      · simp
      · have hdec := (encode_eq_some henc).2.2
        by_cases hidx : idx = t
        · exfalso
          rw [hidx] at hdec
          have hvlen : var < (decode_multiindex i degree).length := by
            rw [length_decode hi2]; exact hvar
          have hki : decode_multiindex i degree
              = (decode_multiindex t (degree + 1)).set var
                  ((decode_multiindex t (degree + 1)).getD var 0 - 1) := by
            rw [hdec, getD_set_self hvlen, List.set_set, Nat.add_sub_cancel,
              set_getD_self hvlen]
          exact hine (decode_injective hi2 hs (hki.trans hk.symm))
        · simp only [List.map_cons, List.map_nil, List.sum_cons, List.sum_nil,
            if_neg hidx, add_zero]
  · intro hns
    exfalso
    rw [hp] at hns
    exact hns (Finset.mem_range.mpr hs)

lemma poly_integrate_getD_zero (N : ℕ) (p : List K) (var degree t : ℕ)
    (hvar : var < 6) (hp : p.length = psi 6 degree) (ht : t < psi 6 (degree + 1))
    (hzero : (decode_multiindex t (degree + 1)).getD var 0 = 0) :
    (_poly_integrate N p var degree).getD t 0 = 0 := by
  have hlen : t < (List.replicate (psi 6 (degree + 1)) (0 : K)).length := by
    rw [List.length_replicate]; exact ht
  rw [_poly_integrate, getD_applyUpdates _ _ _ hlen,
    List.getD_eq_getElem _ _ hlen, List.getElem_replicate, zero_add, int_updates,
    sum_map_flatMap, range_map_sum]
  refine Finset.sum_eq_zero fun i hi => ?_
  have hi2 : i < psi 6 degree := by rw [← hp]; exact Finset.mem_range.mp hi
  by_cases hpi : p.getD i 0 = 0
  · rw [if_pos hpi]
    simp
  · rw [if_neg hpi]
    rcases henc : encode_multiindex N
        ((decode_multiindex i degree).set var
          ((decode_multiindex i degree).getD var 0 + 1)) (degree + 1) with _ | idx
    · simp
    · have hdec := (encode_eq_some henc).2.2
      by_cases hidx : idx = t
      · exfalso
        rw [hidx] at hdec
        have hvlen : var < (decode_multiindex i degree).length := by
          rw [length_decode hi2]; exact hvar
        have : (decode_multiindex t (degree + 1)).getD var 0
            = (decode_multiindex i degree).getD var 0 + 1 := by
          rw [hdec, getD_set_self hvlen]
        omega
      · simp only [List.map_cons, List.map_nil, List.sum_cons, List.sum_nil,
          if_neg hidx, add_zero]

/-- C5.  Integration followed by differentiation in the same variable is the
identity: the integral is the degree-`(degree+1)` array whose coefficient at
`k + e_var` is `coeff / (k[var]+1)` (with zero integration constant
everywhere else), and `_poly_diff (_poly_integrate p var degree) var
(degree+1) = p` exactly. -/
theorem poly_diff_integrate (N : ℕ) (p : List K) (var degree : ℕ) [CharZero K]
    (hvar : var < 6) (hN : degree + 1 ≤ N) (hp : p.length = psi 6 degree) :
    (_poly_integrate N p var degree).length = psi 6 (degree + 1)
    ∧ (∀ i t, i < p.length →
        encode_multiindex N
          ((decode_multiindex i degree).set var
            ((decode_multiindex i degree).getD var 0 + 1)) (degree + 1) = some t →
        (_poly_integrate N p var degree).getD t 0
          = p.getD i 0 / ((decode_multiindex i degree).getD var 0 + 1 : K))
    ∧ (∀ t, t < psi 6 (degree + 1) →
        (decode_multiindex t (degree + 1)).getD var 0 = 0 →
        (_poly_integrate N p var degree).getD t 0 = 0)
    ∧ _poly_diff N (_poly_integrate N p var degree) var (degree + 1) = p := by
  have hip_len : (_poly_integrate N p var degree).length = psi 6 (degree + 1) :=
    length_poly_integrate N p var degree
  have hmid : ∀ i t, i < p.length →
      encode_multiindex N
        ((decode_multiindex i degree).set var
          ((decode_multiindex i degree).getD var 0 + 1)) (degree + 1) = some t →
      (_poly_integrate N p var degree).getD t 0
        = p.getD i 0 / ((decode_multiindex i degree).getD var 0 + 1 : K) := by
    intro i t hi henc
    have hi2 : i < psi 6 degree := by rw [← hp]; exact hi
    have hvlen : var < (decode_multiindex i degree).length := by
      rw [length_decode hi2]; exact hvar
    rcases encode_eq_some henc with ⟨-, ht, hdect⟩
    have hμvar : (decode_multiindex t (degree + 1)).getD var 0
        = (decode_multiindex i degree).getD var 0 + 1 := by
      rw [hdect, getD_set_self hvlen]
    exact poly_integrate_getD N p var degree t i hvar hN hp ht hi2
      (by omega)
      (by rw [hμvar, Nat.add_sub_cancel, hdect, List.set_set, set_getD_self hvlen])
  refine ⟨hip_len, hmid, fun t ht hz =>
    poly_integrate_getD_zero N p var degree t hvar hp ht hz, ?_⟩
  refine List.ext_getElem ?_ ?_
  · rw [length_poly_diff _ _ _ _ (by omega), Nat.add_sub_cancel, hp]
  · intro u h1 h2
    have hu : u < psi 6 degree := by
      rw [length_poly_diff _ _ _ _ (by omega), Nat.add_sub_cancel] at h1
      exact h1
    have hku6 : (decode_multiindex u degree).length = 6 := length_decode hu
    have hmem : (decode_multiindex u degree).set var
        ((decode_multiindex u degree).getD var 0 + 1) ∈ tuplesOfSum 6 (degree + 1) := by
      refine (mem_tuplesOfSum _ _ _).mpr ⟨by rw [List.length_set, hku6], ?_⟩
      have := sum_set_nat (decode_multiindex u degree) var
        ((decode_multiindex u degree).getD var 0 + 1) (by rw [hku6]; exact hvar)
      rw [sum_decode hu] at this
      omega
    rcases henc : encode_multiindex N
        ((decode_multiindex u degree).set var
          ((decode_multiindex u degree).getD var 0 + 1)) (degree + 1) with _ | tp
    · exfalso
      rw [encode_of_mem hN hmem] at henc
      exact absurd henc (by simp)
    · rcases encode_eq_some henc with ⟨-, htp, hdectp⟩
      have hdiff := poly_diff_getD N (_poly_integrate N p var degree) var (degree + 1)
        u tp hvar (by omega) (by omega) hip_len
        (by rwa [Nat.add_sub_cancel]) htp ?_
      · have hint := hmid u tp h2 henc
        rw [← List.getD_eq_getElem _ 0 h1, hdiff, Nat.add_sub_cancel, hint,
          List.getD_eq_getElem _ 0 h2]
        have hcast : (((decode_multiindex u degree).getD var 0 + 1 : ℕ) : K)
            = ((decode_multiindex u degree).getD var 0 + 1 : K) := by push_cast; ring
        rw [hcast, mul_comm, div_mul_cancel₀]
        exact Nat.cast_add_one_ne_zero _
      · rw [Nat.add_sub_cancel, hdectp]

/-- Witness for C5 at a concrete input. -/
theorem poly_diff_integrate_witness :
    (0 < 6 ∧ 1 + 1 ≤ 2 ∧ ([(4 : ℚ), 0, 0, 0, 0, 9]).length = psi 6 1)
    ∧ ((_poly_integrate 2 [(4 : ℚ), 0, 0, 0, 0, 9] 0 1).length = psi 6 (1 + 1)
      ∧ (∀ i t, i < ([(4 : ℚ), 0, 0, 0, 0, 9]).length →
          encode_multiindex 2
            ((decode_multiindex i 1).set 0 ((decode_multiindex i 1).getD 0 0 + 1))
            (1 + 1) = some t →
          (_poly_integrate 2 [(4 : ℚ), 0, 0, 0, 0, 9] 0 1).getD t 0
            = ([(4 : ℚ), 0, 0, 0, 0, 9]).getD i 0
              / ((decode_multiindex i 1).getD 0 0 + 1 : ℚ))
      ∧ (∀ t, t < psi 6 (1 + 1) →
          (decode_multiindex t (1 + 1)).getD 0 0 = 0 →
          (_poly_integrate 2 [(4 : ℚ), 0, 0, 0, 0, 9] 0 1).getD t 0 = 0)
      ∧ _poly_diff 2 (_poly_integrate 2 [(4 : ℚ), 0, 0, 0, 0, 9] 0 1) 0 (1 + 1)
          = [(4 : ℚ), 0, 0, 0, 0, 9]) :=
  ⟨⟨by decide, by decide, by decide⟩,
    poly_diff_integrate 2 [(4 : ℚ), 0, 0, 0, 0, 9] 0 1 (by decide) (by decide) (by decide)⟩

end Integrate

section Poisson

variable {K : Type} [Field K] [DecidableEq K]

/-- One iteration of the `for m in range(3)` loop of `_poly_poisson`
(`algorithms/center/polynomial/algebra.py`, lines 204-288): two
differentiate-multiply passes; each product is added into (resp. subtracted
from) the accumulator only when its length matches, exactly as the source
guards `term.shape[0] == r.shape[0]`. -/
def poisson_step (N : ℕ) (p : List K) (deg_p : ℕ) (q : List K) (deg_q : ℕ)
    (r : List K) (m : ℕ) : List K :=
  let term1 := _poly_mul N
      (if 1 ≤ deg_p then _poly_diff N p m deg_p else List.replicate (psi 6 0) 0) (deg_p - 1)
      (if 1 ≤ deg_q then _poly_diff N q (m + 3) deg_q else List.replicate (psi 6 0) 0) (deg_q - 1)
  let r1 := if term1.length = r.length then List.zipWith (· + ·) r term1 else r
  let term2 := _poly_mul N
      (if 1 ≤ deg_p then _poly_diff N p (m + 3) deg_p else List.replicate (psi 6 0) 0) (deg_p - 1)
      (if 1 ≤ deg_q then _poly_diff N q m deg_q else List.replicate (psi 6 0) 0) (deg_q - 1)
  if term2.length = r1.length then List.zipWith (· - ·) r1 term2 else r1

/-- `_poly_poisson` of `algorithms/center/polynomial/algebra.py`: the Poisson
bracket accumulated over the three canonical coordinate pairs; a constant
operand short-circuits to the zero degree-0 array. -/
def _poly_poisson (N : ℕ) (p : List K) (deg_p : ℕ) (q : List K) (deg_q : ℕ) : List K :=
  if deg_p = 0 ∨ deg_q = 0 then List.replicate (psi 6 0) 0
  else (List.range 3).foldl (poisson_step N p deg_p q deg_q)
    (List.replicate (psi 6 (deg_p + deg_q - 2)) 0)

lemma poisson_step_eq (N : ℕ) (p : List K) (deg_p : ℕ) (q : List K) (deg_q : ℕ)
    (r : List K) (m : ℕ) (hp : 1 ≤ deg_p) (hq : 1 ≤ deg_q)
    (hr : r.length = psi 6 (deg_p + deg_q - 2)) :
    poisson_step N p deg_p q deg_q r m
      = List.zipWith (· - ·)
          (List.zipWith (· + ·) r
            (_poly_mul N (_poly_diff N p m deg_p) (deg_p - 1)
              (_poly_diff N q (m + 3) deg_q) (deg_q - 1)))
          (_poly_mul N (_poly_diff N p (m + 3) deg_p) (deg_p - 1)
            (_poly_diff N q m deg_q) (deg_q - 1)) := by
  have hdeg : deg_p - 1 + (deg_q - 1) = deg_p + deg_q - 2 := by omega
  have h1 : (_poly_mul N (_poly_diff N p m deg_p) (deg_p - 1)
      (_poly_diff N q (m + 3) deg_q) (deg_q - 1)).length = r.length := by
    rw [length_poly_mul, hdeg, hr]
  have h2 : (_poly_mul N (_poly_diff N p (m + 3) deg_p) (deg_p - 1)
      (_poly_diff N q m deg_q) (deg_q - 1)).length
      = (List.zipWith (· + ·) r
          (_poly_mul N (_poly_diff N p m deg_p) (deg_p - 1)
            (_poly_diff N q (m + 3) deg_q) (deg_q - 1))).length := by
    rw [List.length_zipWith, length_poly_mul, length_poly_mul, hdeg, hr]
    omega
  simp only [poisson_step, if_pos hp, if_pos hq, if_pos h1, if_pos h2]

lemma length_poisson_step (N : ℕ) (p : List K) (deg_p : ℕ) (q : List K) (deg_q : ℕ)
    (r : List K) (m : ℕ) (hp : 1 ≤ deg_p) (hq : 1 ≤ deg_q)
    (hr : r.length = psi 6 (deg_p + deg_q - 2)) :
    (poisson_step N p deg_p q deg_q r m).length = r.length := by
  have hdeg : deg_p - 1 + (deg_q - 1) = deg_p + deg_q - 2 := by omega
  rw [poisson_step_eq N p deg_p q deg_q r m hp hq hr, List.length_zipWith,
    List.length_zipWith, length_poly_mul, length_poly_mul, hdeg, hr]
  omega

lemma poisson_fold_length (N : ℕ) (p : List K) (deg_p : ℕ) (q : List K) (deg_q : ℕ)
    (hp : 1 ≤ deg_p) (hq : 1 ≤ deg_q) (ms : List ℕ) :
    ∀ (r : List K), r.length = psi 6 (deg_p + deg_q - 2) →
    (ms.foldl (poisson_step N p deg_p q deg_q) r).length = psi 6 (deg_p + deg_q - 2) := by
  induction ms with
  | nil => intro r hr; exact hr
  | cons m ms ih =>
      intro r hr
      rw [List.foldl_cons]
      exact ih _ (by rw [length_poisson_step N p deg_p q deg_q r m hp hq hr, hr])

lemma poisson_step_neg (N : ℕ) (p : List K) (deg_p : ℕ) (q : List K) (deg_q : ℕ)
    (r r2 : List K) (m : ℕ) (hp : 1 ≤ deg_p) (hq : 1 ≤ deg_q)
    (hr : r.length = psi 6 (deg_p + deg_q - 2)) (hneg : r2 = r.map (fun x => -x)) :
    poisson_step N q deg_q p deg_p r2 m
      = (poisson_step N p deg_p q deg_q r m).map (fun x => -x) := by
  have hr2 : r2.length = psi 6 (deg_q + deg_p - 2) := by
    rw [hneg, List.length_map, hr, Nat.add_comm]
  rw [poisson_step_eq N q deg_q p deg_p r2 m hq hp hr2,
    poisson_step_eq N p deg_p q deg_q r m hp hq hr,
    poly_mul_comm N (_poly_diff N q m deg_q) (deg_q - 1) (_poly_diff N p (m + 3) deg_p) (deg_p - 1),
    poly_mul_comm N (_poly_diff N q (m + 3) deg_q) (deg_q - 1) (_poly_diff N p m deg_p) (deg_p - 1)]
  have hdeg : deg_p - 1 + (deg_q - 1) = deg_p + deg_q - 2 := by omega
  have hT1 : (_poly_mul N (_poly_diff N p m deg_p) (deg_p - 1)
      (_poly_diff N q (m + 3) deg_q) (deg_q - 1)).length = psi 6 (deg_p + deg_q - 2) := by
    rw [length_poly_mul, hdeg]
  have hT2 : (_poly_mul N (_poly_diff N p (m + 3) deg_p) (deg_p - 1)
      (_poly_diff N q m deg_q) (deg_q - 1)).length = psi 6 (deg_p + deg_q - 2) := by
    rw [length_poly_mul, hdeg]
  refine List.ext_getElem ?_ ?_
  · simp only [List.length_zipWith, List.length_map, hneg, hr, hT1, hT2]
  · intro u h1 h2
    simp only [List.getElem_zipWith, List.getElem_map, hneg]
    ring

/-- C4.  `_poly_poisson` is antisymmetric (`{p,q} = -{q,p}` elementwise, here
exactly in exact arithmetic), its result for positive degrees has the length
of a degree-`(deg_p+deg_q-2)` polynomial, and a degree-0 operand yields the
zero constant polynomial. -/
theorem poly_poisson_antisymm (N : ℕ) (p : List K) (deg_p : ℕ) (q : List K)
    (deg_q : ℕ) (hp : 1 ≤ deg_p) (hq : 1 ≤ deg_q) :
    (_poly_poisson N p deg_p q deg_q).length = psi 6 (deg_p + deg_q - 2)
    ∧ _poly_poisson N q deg_q p deg_p
        = (_poly_poisson N p deg_p q deg_q).map (fun x => -x)
    ∧ (∀ (dp0 dq0 : ℕ) (p0 q0 : List K), dp0 = 0 ∨ dq0 = 0 →
        _poly_poisson N p0 dp0 q0 dq0 = List.replicate (psi 6 0) 0) := by
  have hnotp : ¬ (deg_p = 0 ∨ deg_q = 0) := by omega
  have hnotq : ¬ (deg_q = 0 ∨ deg_p = 0) := by omega
  refine ⟨?_, ?_, ?_⟩
  · rw [_poly_poisson, if_neg hnotp]
    exact poisson_fold_length N p deg_p q deg_q hp hq _ _ (by rw [List.length_replicate])
  · rw [_poly_poisson, _poly_poisson, if_neg hnotp, if_neg hnotq]
    have hgen : ∀ (ms : List ℕ) (r r2 : List K),
        r.length = psi 6 (deg_p + deg_q - 2) → r2 = r.map (fun x => -x) →
        ms.foldl (poisson_step N q deg_q p deg_p) r2
          = (ms.foldl (poisson_step N p deg_p q deg_q) r).map (fun x => -x) := by
      intro ms
      induction ms with
      | nil => intro r r2 _ hneg; simpa using hneg
      | cons m ms ih =>
          intro r r2 hr hneg
          rw [List.foldl_cons, List.foldl_cons,
            poisson_step_neg N p deg_p q deg_q r r2 m hp hq hr hneg]
          exact ih _ _ (by rw [length_poisson_step N p deg_p q deg_q r m hp hq hr, hr]) rfl
    have hinit : (List.replicate (psi 6 (deg_q + deg_p - 2)) (0 : K))
        = (List.replicate (psi 6 (deg_p + deg_q - 2)) (0 : K)).map (fun x => -x) := by
      rw [List.map_replicate, neg_zero, Nat.add_comm]
    exact hgen (List.range 3) _ _ (by rw [List.length_replicate]) hinit
  · intro dp0 dq0 p0 q0 h0
    rw [_poly_poisson, if_pos h0]

/-- Witness for C4 at a concrete input. -/
theorem poly_poisson_antisymm_witness :
    (1 ≤ 1 ∧ 1 ≤ 1)
    ∧ ((_poly_poisson 2 [(1 : ℚ), 0, 0, 0, 0, 2] 1 [(0 : ℚ), 0, 3, 0, 0, 0] 1).length
        = psi 6 (1 + 1 - 2)
      ∧ _poly_poisson 2 [(0 : ℚ), 0, 3, 0, 0, 0] 1 [(1 : ℚ), 0, 0, 0, 0, 2] 1
          = (_poly_poisson 2 [(1 : ℚ), 0, 0, 0, 0, 2] 1 [(0 : ℚ), 0, 3, 0, 0, 0] 1).map
              (fun x => -x)
      ∧ (∀ (dp0 dq0 : ℕ) (p0 q0 : List ℚ), dp0 = 0 ∨ dq0 = 0 →
          _poly_poisson 2 p0 dp0 q0 dq0 = List.replicate (psi 6 0) 0)) :=
  ⟨⟨by decide, by decide⟩,
    poly_poisson_antisymm 2 [(1 : ℚ), 0, 0, 0, 0, 2] 1 [(0 : ℚ), 0, 3, 0, 0, 0] 1
      (by decide) (by decide)⟩

end Poisson

section TupleHelpers

lemma decode_indexOf {degree : ℕ} {k : List ℕ} (hk : k ∈ tuplesOfSum 6 degree) :
    decode_multiindex
      (@List.indexOf (List ℕ) instBEqOfDecidableEq k (tuplesOfSum 6 degree)) degree = k := by
  have hlt := List.indexOf_lt_length.mpr hk
  rw [decode_multiindex, List.getD_eq_getElem _ _ hlt]
  exact List.getElem_indexOf hlt

lemma indexOf_lt_psi {degree : ℕ} {k : List ℕ} (hk : k ∈ tuplesOfSum 6 degree) :
    @List.indexOf (List ℕ) instBEqOfDecidableEq k (tuplesOfSum 6 degree) < psi 6 degree := by
  rw [← length_tuplesOfSum]
  exact List.indexOf_lt_length.mpr hk

lemma getD_unit {c : ℕ} (hc : c < 6) (m : ℕ) :
    ((List.replicate 6 (0 : ℕ)).set c 1).getD m 0 = if c = m then 1 else 0 := by
  by_cases h : c = m
  · subst h
    rw [if_pos rfl, getD_set_self (by simpa using hc)]
  · rw [if_neg h, getD_set_ne h, getD_replicate_zero]

lemma unit_mem {c : ℕ} (hc : c < 6) :
    (List.replicate 6 (0 : ℕ)).set c 1 ∈ tuplesOfSum 6 1 := by
  refine (mem_tuplesOfSum 6 1 _).mpr ⟨by simp, ?_⟩
  have := sum_set_nat (List.replicate 6 0) c 1 (by simpa using hc)
  rw [getD_replicate_zero] at this
  simp at this
  simpa using this

lemma incr_mem {degree c : ℕ} {k : List ℕ} (hc : c < 6)
    (hk : k ∈ tuplesOfSum 6 degree) :
    k.set c (k.getD c 0 + 1) ∈ tuplesOfSum 6 (degree + 1) := by
  rcases (mem_tuplesOfSum 6 degree k).mp hk with ⟨hlen, hsum⟩
  refine (mem_tuplesOfSum 6 (degree + 1) _).mpr ⟨by rw [List.length_set, hlen], ?_⟩
  have := sum_set_nat k c (k.getD c 0 + 1) (by rw [hlen]; exact hc)
  omega

lemma decr_mem {degree c : ℕ} {k : List ℕ} (hc : c < 6)
    (hk : k ∈ tuplesOfSum 6 degree) (hpos : 1 ≤ k.getD c 0) :
    k.set c (k.getD c 0 - 1) ∈ tuplesOfSum 6 (degree - 1) := by
  rcases (mem_tuplesOfSum 6 degree k).mp hk with ⟨hlen, hsum⟩
  have hdegpos : 1 ≤ degree := by
    rcases Nat.lt_or_ge degree 1 with h | h
    · exfalso
      have h0 : degree = 0 := by omega
      subst h0
      have : k.getD c 0 ≤ k.sum := by
        rcases Nat.lt_or_ge c k.length with hcl | hcl
        · rw [List.getD_eq_getElem _ _ hcl]
          exact List.single_le_sum (fun x _ => Nat.zero_le x) _ (List.getElem_mem _)
        · rw [List.getD_eq_default _ _ hcl]
          omega
      omega
    · exact h
  refine (mem_tuplesOfSum 6 (degree - 1) _).mpr ⟨by rw [List.length_set, hlen], ?_⟩
  have := sum_set_nat k c (k.getD c 0 - 1) (by rw [hlen]; exact hc)
  omega

lemma vecAdd_unit_set {c : ℕ} (hc : c < 6) {κ : List ℕ} (hκ : κ.length = 6)
    (hpos : 1 ≤ κ.getD c 0) :
    vecAdd ((List.replicate 6 0).set c 1) (κ.set c (κ.getD c 0 - 1)) = κ := by
  refine list6_ext (length_vecAdd _ _) hκ ?_
  intro m hm
  rw [getD_vecAdd _ _ hm, getD_unit hc m]
  by_cases h : c = m
  · subst h
    rw [if_pos rfl, getD_set_self (by rw [hκ]; exact hc)]
    omega
  · rw [if_neg h, getD_set_ne h, Nat.zero_add]

lemma vecAdd_unit_inv {c : ℕ} (hc : c < 6) {κ k : List ℕ} (hκ6 : κ.length = 6)
    (hk6 : k.length = 6) (h : κ = vecAdd ((List.replicate 6 0).set c 1) k) :
    1 ≤ κ.getD c 0 ∧ k = κ.set c (κ.getD c 0 - 1) := by
  have hκc : κ.getD c 0 = 1 + k.getD c 0 := by
    rw [h, getD_vecAdd _ _ hc, getD_unit hc c, if_pos rfl]
  refine ⟨by omega, ?_⟩
  refine list6_ext hk6 (by rw [List.length_set, hκ6]) ?_
  intro m hm
  by_cases hcm : c = m
  · subst hcm
    rw [getD_set_self (by rw [hκ6]; exact hc)]
    omega
  · rw [getD_set_ne hcm, h, getD_vecAdd _ _ hm, getD_unit hc m, if_neg hcm, Nat.zero_add]

end TupleHelpers

section HomologicalSetup

variable {K : Type} [Field K] [DecidableEq K]

/-- A convenience restatement of `poly_diff_getD` with the source position
spelled as an `indexOf` into the degree-`degree` table. -/
lemma poly_diff_getD_idx (N : ℕ) (p : List K) (var degree t : ℕ)
    (hvar : var < 6) (hdeg : 1 ≤ degree) (hN : degree - 1 ≤ N)
    (hp : p.length = psi 6 degree) (ht : t < psi 6 (degree - 1)) :
    (_poly_diff N p var degree).getD t 0
      = (((decode_multiindex t (degree - 1)).getD var 0 + 1 : ℕ) : K)
        * p.getD (@List.indexOf (List ℕ) instBEqOfDecidableEq
            ((decode_multiindex t (degree - 1)).set var
              ((decode_multiindex t (degree - 1)).getD var 0 + 1))
            (tuplesOfSum 6 degree)) 0 := by
  have hmem : (decode_multiindex t (degree - 1)).set var
      ((decode_multiindex t (degree - 1)).getD var 0 + 1) ∈ tuplesOfSum 6 (degree - 1 + 1) :=
    incr_mem hvar (decode_mem ht)
  rw [Nat.sub_add_cancel hdeg] at hmem
  refine poly_diff_getD N p var degree t _ hvar hdeg hN hp ht
    (indexOf_lt_psi hmem) (decode_indexOf hmem)

/-- The degree-2 block of `H_2 = eta0*q1*p1 + eta1*q2*p2 + eta2*q3*p3`, built
the way the test harness (`test_lie.py`) builds it: three entries written
into a zero degree-2 array at the encoded positions of `q1p1`, `q2p2`,
`q3p3`. -/
def h2_block (N : ℕ) (eta0 eta1 eta2 : K) : List K :=
  let z0 : List K := List.replicate (psi 6 2) 0
  let z1 := match encode_multiindex N [1, 0, 0, 1, 0, 0] 2 with
    | some i => z0.set i eta0
    | none => z0
  let z2 := match encode_multiindex N [0, 1, 0, 0, 1, 0] 2 with
    | some i => z1.set i eta1
    | none => z1
  match encode_multiindex N [0, 0, 1, 0, 0, 1] 2 with
  | some i => z2.set i eta2
  | none => z2

lemma length_h2_block (N : ℕ) (a b c : K) : (h2_block N a b c).length = psi 6 2 := by
  simp only [h2_block]
  rcases encode_multiindex N [1, 0, 0, 1, 0, 0] 2 with _ | i1 <;>
    rcases encode_multiindex N [0, 1, 0, 0, 1, 0] 2 with _ | i2 <;>
      rcases encode_multiindex N [0, 0, 1, 0, 0, 1] 2 with _ | i3 <;>
        simp

lemma h2_block_getD (N : ℕ) (hN : 2 ≤ N) (a b c : K) (s : ℕ) (hs : s < psi 6 2) :
    (h2_block N a b c).getD s 0
      = if decode_multiindex s 2 = [1, 0, 0, 1, 0, 0] then a
        else if decode_multiindex s 2 = [0, 1, 0, 0, 1, 0] then b
          else if decode_multiindex s 2 = [0, 0, 1, 0, 0, 1] then c else 0 := by
  have hm1 : [1, 0, 0, 1, 0, 0] ∈ tuplesOfSum 6 2 := by decide
  have hm2 : [0, 1, 0, 0, 1, 0] ∈ tuplesOfSum 6 2 := by decide
  have hm3 : [0, 0, 1, 0, 0, 1] ∈ tuplesOfSum 6 2 := by decide
  have hiff : ∀ (k : List ℕ), k ∈ tuplesOfSum 6 2 →
      ((decode_multiindex s 2 = k)
        ↔ s = @List.indexOf (List ℕ) instBEqOfDecidableEq k (tuplesOfSum 6 2)) := by
    intro k hk
    constructor
    · intro h
      exact decode_injective hs (indexOf_lt_psi hk) (h.trans (decode_indexOf hk).symm)
    · intro h
      rw [h, decode_indexOf hk]
  simp only [h2_block, encode_of_mem hN hm1, encode_of_mem hN hm2, encode_of_mem hN hm3,
    hiff _ hm1, hiff _ hm2, hiff _ hm3]
  have hlen0 : (List.replicate (psi 6 2) (0 : K)).length = psi 6 2 := by simp
  by_cases h3 : s = @List.indexOf (List ℕ) instBEqOfDecidableEq
      [0, 0, 1, 0, 0, 1] (tuplesOfSum 6 2)
  · rw [h3, getD_set_self (by simp [List.length_set]; exact indexOf_lt_psi hm3)]
    rw [if_neg (by decide), if_neg (by decide), if_pos rfl]
  · rw [getD_set_ne (fun h => h3 h.symm)]
    by_cases h2 : s = @List.indexOf (List ℕ) instBEqOfDecidableEq
        [0, 1, 0, 0, 1, 0] (tuplesOfSum 6 2)
    · rw [h2, getD_set_self (by simp [List.length_set]; exact indexOf_lt_psi hm2)]
      rw [if_neg (by decide), if_pos rfl]
    · rw [getD_set_ne (fun h => h2 h.symm)]
      by_cases h1 : s = @List.indexOf (List ℕ) instBEqOfDecidableEq
          [1, 0, 0, 1, 0, 0] (tuplesOfSum 6 2)
      · rw [h1, getD_set_self (by simpa using indexOf_lt_psi hm1), if_pos rfl]
      · rw [getD_set_ne (fun h => h1 h.symm),
          if_neg h1, if_neg h2, if_neg h3]
        rcases Nat.lt_or_ge s (psi 6 2) with hlt | hge
        · rw [List.getD_eq_getElem _ _ (by simpa using hlt), List.getElem_replicate]
        · rw [List.getD_eq_default _ _ (by simpa using hge)]

lemma psi_six_one : psi 6 1 = 6 := by decide

lemma diff_h2_getD (N : ℕ) (hN : 2 ≤ N) (a b c : K) (var t : ℕ)
    (hvar : var < 6) (ht : t < 6) :
    (_poly_diff N (h2_block N a b c) var 2).getD t 0
      = if decode_multiindex t 1 = (List.replicate 6 0).set ((var + 3) % 6) 1
        then (if var % 3 = 0 then a else if var % 3 = 1 then b else c) else 0 := by
  have ht' : t < psi 6 1 := by rw [psi_six_one]; exact ht
  have ht2 : t < psi 6 (2 - 1) := ht'
  have hmem : (decode_multiindex t 1).set var ((decode_multiindex t 1).getD var 0 + 1)
      ∈ tuplesOfSum 6 2 := incr_mem hvar (decode_mem ht')
  rw [poly_diff_getD_idx N _ var 2 t hvar (by omega) (by omega)
    (length_h2_block N a b c) ht2]
  rw [show (2 : ℕ) - 1 = 1 from rfl]
  rw [h2_block_getD N hN a b c _ (indexOf_lt_psi hmem), decode_indexOf hmem]
  have d0 : decode_multiindex 0 1 = [0, 0, 0, 0, 0, 1] := by decide
  have d1 : decode_multiindex 1 1 = [0, 0, 0, 0, 1, 0] := by decide
  have d2 : decode_multiindex 2 1 = [0, 0, 0, 1, 0, 0] := by decide
  have d3 : decode_multiindex 3 1 = [0, 0, 1, 0, 0, 0] := by decide
  have d4 : decode_multiindex 4 1 = [0, 1, 0, 0, 0, 0] := by decide
  have d5 : decode_multiindex 5 1 = [1, 0, 0, 0, 0, 0] := by decide
  interval_cases var <;> interval_cases t <;>
    simp +decide [d0, d1, d2, d3, d4, d5, List.set]

lemma getD_zipWith_of_lt (f : K → K → K) (x y : List K) (t : ℕ)
    (hx : t < x.length) (hy : t < y.length) :
    (List.zipWith f x y).getD t 0 = f (x.getD t 0) (y.getD t 0) := by
  have hz : t < (List.zipWith f x y).length := by
    rw [List.length_zipWith]
    omega
  rw [List.getD_eq_getElem _ _ hz, List.getD_eq_getElem _ _ hx,
    List.getD_eq_getElem _ _ hy, List.getElem_zipWith]

lemma poly_mul_mono_left (N c d2 : ℕ) (α : K) (a b : List K)
    (hc : c < 6) (hN : 1 + d2 ≤ N) (ha_len : a.length = psi 6 1)
    (hb_len : b.length = psi 6 d2)
    (ha : ∀ u, u < psi 6 1 →
      a.getD u 0 = if decode_multiindex u 1 = (List.replicate 6 0).set c 1 then α else 0)
    (t : ℕ) (ht : t < psi 6 (1 + d2)) :
    (_poly_mul N a 1 b d2).getD t 0
      = if 1 ≤ (decode_multiindex t (1 + d2)).getD c 0
        then α * b.getD (@List.indexOf (List ℕ) instBEqOfDecidableEq
            ((decode_multiindex t (1 + d2)).set c
              ((decode_multiindex t (1 + d2)).getD c 0 - 1)) (tuplesOfSum 6 d2)) 0
        else 0 := by
  have hu0mem : (List.replicate 6 0).set c 1 ∈ tuplesOfSum 6 1 := unit_mem hc
  have hu0lt : @List.indexOf (List ℕ) instBEqOfDecidableEq
      ((List.replicate 6 0).set c 1) (tuplesOfSum 6 1) < psi 6 1 := indexOf_lt_psi hu0mem
  have hκ6 : (decode_multiindex t (1 + d2)).length = 6 := length_decode ht
  rw [poly_mul_getD N a 1 b d2 t ht, ha_len]
  have hstep1 : ∀ i ∈ Finset.range (psi 6 1),
      i ≠ @List.indexOf (List ℕ) instBEqOfDecidableEq
        ((List.replicate 6 0).set c 1) (tuplesOfSum 6 1) →
      (∑ j ∈ Finset.range b.length,
        if encode_multiindex N
            (vecAdd (decode_multiindex i 1) (decode_multiindex j d2)) (1 + d2) = some t
        then a.getD i 0 * b.getD j 0 else 0) = 0 := by
    intro i hi hne
    refine Finset.sum_eq_zero fun j _ => ?_
    have hi1 : i < psi 6 1 := Finset.mem_range.mp hi
    have hai : a.getD i 0 = 0 := by
      rw [ha i hi1, if_neg]
      intro hcon
      exact hne (decode_injective hi1 hu0lt (hcon.trans (decode_indexOf hu0mem).symm))
    rw [hai, zero_mul, ite_self]
  have hstep2 : (@List.indexOf (List ℕ) instBEqOfDecidableEq
      ((List.replicate 6 0).set c 1) (tuplesOfSum 6 1)) ∉ Finset.range (psi 6 1) →
      (∑ j ∈ Finset.range b.length,
        if encode_multiindex N
            (vecAdd (decode_multiindex (@List.indexOf (List ℕ) instBEqOfDecidableEq
              ((List.replicate 6 0).set c 1) (tuplesOfSum 6 1)) 1)
              (decode_multiindex j d2)) (1 + d2) = some t
        then a.getD (@List.indexOf (List ℕ) instBEqOfDecidableEq
            ((List.replicate 6 0).set c 1) (tuplesOfSum 6 1)) 0 * b.getD j 0 else 0) = 0 :=
    fun hcon => absurd (Finset.mem_range.mpr hu0lt) hcon
  rw [Finset.sum_eq_single _ hstep1 hstep2, decode_indexOf hu0mem,
    ha _ hu0lt, decode_indexOf hu0mem, if_pos rfl]
  by_cases hpos : 1 ≤ (decode_multiindex t (1 + d2)).getD c 0
  · rw [if_pos hpos]
    have hj0mem : (decode_multiindex t (1 + d2)).set c
        ((decode_multiindex t (1 + d2)).getD c 0 - 1) ∈ tuplesOfSum 6 d2 := by
      have := decr_mem hc (decode_mem ht) hpos
      rwa [Nat.add_sub_cancel_left] at this
    have hj0lt : @List.indexOf (List ℕ) instBEqOfDecidableEq
        ((decode_multiindex t (1 + d2)).set c
          ((decode_multiindex t (1 + d2)).getD c 0 - 1)) (tuplesOfSum 6 d2) < psi 6 d2 :=
      indexOf_lt_psi hj0mem
    have hinner1 : ∀ j ∈ Finset.range b.length,
        j ≠ @List.indexOf (List ℕ) instBEqOfDecidableEq
          ((decode_multiindex t (1 + d2)).set c
            ((decode_multiindex t (1 + d2)).getD c 0 - 1)) (tuplesOfSum 6 d2) →
        (if encode_multiindex N
            (vecAdd ((List.replicate 6 0).set c 1) (decode_multiindex j d2)) (1 + d2) = some t
         then α * b.getD j 0 else 0) = 0 := by
      intro j hj hne
      rw [if_neg]
      intro hcon
      have hj2 : j < psi 6 d2 := by rw [← hb_len]; exact Finset.mem_range.mp hj
      have hdect := (encode_eq_some hcon).2.2
      have := vecAdd_unit_inv hc hκ6 (length_decode hj2) hdect
      exact hne (decode_injective hj2 hj0lt (this.2.trans (decode_indexOf hj0mem).symm))
    have hinner2 : (@List.indexOf (List ℕ) instBEqOfDecidableEq
        ((decode_multiindex t (1 + d2)).set c
          ((decode_multiindex t (1 + d2)).getD c 0 - 1)) (tuplesOfSum 6 d2))
        ∉ Finset.range b.length →
        (if encode_multiindex N
            (vecAdd ((List.replicate 6 0).set c 1)
              (decode_multiindex (@List.indexOf (List ℕ) instBEqOfDecidableEq
                ((decode_multiindex t (1 + d2)).set c
                  ((decode_multiindex t (1 + d2)).getD c 0 - 1)) (tuplesOfSum 6 d2)) d2))
            (1 + d2) = some t
         then α * b.getD (@List.indexOf (List ℕ) instBEqOfDecidableEq
            ((decode_multiindex t (1 + d2)).set c
              ((decode_multiindex t (1 + d2)).getD c 0 - 1)) (tuplesOfSum 6 d2)) 0
         else 0) = 0 := by
      intro hcon
      exfalso
      rw [hb_len] at hcon
      exact hcon (Finset.mem_range.mpr hj0lt)
    rw [Finset.sum_eq_single _ hinner1 hinner2, decode_indexOf hj0mem,
      vecAdd_unit_set hc hκ6 hpos, encode_decode hN ht, if_pos rfl]
  · rw [if_neg hpos]
    refine Finset.sum_eq_zero fun j hj => ?_
    rw [if_neg]
    intro hcon
    have hj2 : j < psi 6 d2 := by rw [← hb_len]; exact Finset.mem_range.mp hj
    have hdect := (encode_eq_some hcon).2.2
    have := vecAdd_unit_inv hc hκ6 (length_decode hj2) hdect
    omega

lemma getD_replicate_zeroK (n m : ℕ) : (List.replicate n (0 : K)).getD m 0 = 0 := by
  rcases Nat.lt_or_ge m n with hm | hm
  · rw [List.getD_eq_getElem _ _ (by simpa using hm), List.getElem_replicate]
  · rw [List.getD_eq_default _ _ (by simpa using hm)]

/-- The eigenvalue combination `eta0*(k3-k0) + eta1*(k4-k1) + eta2*(k5-k2)`
dividing each bad term in the homological-equation solver. -/
def hom_denom (eta0 eta1 eta2 : K) (k : List ℕ) : K :=
  eta0 * (((k.getD 3 0 : ℤ) - (k.getD 0 0 : ℤ) : ℤ) : K)
  + eta1 * (((k.getD 4 0 : ℤ) - (k.getD 1 0 : ℤ) : ℤ) : K)
  + eta2 * (((k.getD 5 0 : ℤ) - (k.getD 2 0 : ℤ) : ℤ) : K)

/-- Modelled from the spec: `_solve_homological_equation` of
`algorithms/center/lie.py` (absent from the sources; only its test and
callers are available).  Per the spec, the degree-`n` generating function has
coefficient `-H_bad[k] / (lam*(k3-k0) + i*om1*(k4-k1) + i*om2*(k5-k2))` at each
bad tuple `k` (`k[0] != k[3]`) and is exactly zero at every good position;
`eta0, eta1, eta2` stand for `lam, i*om1, i*om2`. -/
def _solve_homological_equation (Hn : List K) (n : ℕ) (eta0 eta1 eta2 : K) : List K :=
  (List.range (psi 6 n)).map fun pos =>
    if (decode_multiindex pos n).getD 0 0 = (decode_multiindex pos n).getD 3 0 then 0
    else -(Hn.getD pos 0) / hom_denom eta0 eta1 eta2 (decode_multiindex pos n)

lemma length_solve_hom (Hn : List K) (n : ℕ) (eta0 eta1 eta2 : K) :
    (_solve_homological_equation Hn n eta0 eta1 eta2).length = psi 6 n := by
  rw [_solve_homological_equation, List.length_map, List.length_range]

lemma solve_hom_getD (Hn : List K) (n : ℕ) (eta0 eta1 eta2 : K) (t : ℕ)
    (ht : t < psi 6 n) :
    (_solve_homological_equation Hn n eta0 eta1 eta2).getD t 0
      = if (decode_multiindex t n).getD 0 0 = (decode_multiindex t n).getD 3 0 then 0
        else -(Hn.getD t 0) / hom_denom eta0 eta1 eta2 (decode_multiindex t n) := by
  have hlen : t < (_solve_homological_equation Hn n eta0 eta1 eta2).length := by
    rw [length_solve_hom]; exact ht
  rw [List.getD_eq_getElem _ _ hlen]
  simp only [_solve_homological_equation, List.getElem_map, List.getElem_range]

lemma step_h2_getD (N n : ℕ) (hN2 : 2 ≤ N) (hn : 1 ≤ n) (hnN : n ≤ N)
    (a b c : K) (G : List K) (hG : G.length = psi 6 n) (m : ℕ) (hm : m < 3)
    (r : List K) (hr : r.length = psi 6 (2 + n - 2)) (t : ℕ) (ht : t < psi 6 n) :
    (poisson_step N (h2_block N a b c) 2 G n r m).getD t 0
      = r.getD t 0
        + (if m = 0 then a else if m = 1 then b else c)
          * ((((decode_multiindex t n).getD (m + 3) 0 : K)
            - ((decode_multiindex t n).getD m 0 : K)) * G.getD t 0) := by
  have h2n : 2 + n - 2 = n := by omega
  have hκmem : decode_multiindex t n ∈ tuplesOfSum 6 n := decode_mem ht
  have hκ6 : (decode_multiindex t n).length = 6 := length_decode ht
  have hn1 : 1 + (n - 1) = n := by omega
  have haT1 : ∀ u, u < psi 6 1 →
      (_poly_diff N (h2_block N a b c) m 2).getD u 0
        = if decode_multiindex u 1 = (List.replicate 6 0).set (m + 3) 1
          then (if m = 0 then a else if m = 1 then b else c) else 0 := by
    intro u hu
    have hu6 : u < 6 := by rw [psi_six_one] at hu; exact hu
    rw [diff_h2_getD N hN2 a b c m u (by omega) hu6,
      show (m + 3) % 6 = m + 3 from by omega, show m % 3 = m from by omega]
  have haT2 : ∀ u, u < psi 6 1 →
      (_poly_diff N (h2_block N a b c) (m + 3) 2).getD u 0
        = if decode_multiindex u 1 = (List.replicate 6 0).set m 1
          then (if m = 0 then a else if m = 1 then b else c) else 0 := by
    intro u hu
    have hu6 : u < 6 := by rw [psi_six_one] at hu; exact hu
    rw [diff_h2_getD N hN2 a b c (m + 3) u (by omega) hu6,
      show (m + 3 + 3) % 6 = m from by omega, show (m + 3) % 3 = m from by omega]
  have hmulvar : ∀ (v : ℕ), v < 6 →
      (∀ u, u < psi 6 1 →
        (_poly_diff N (h2_block N a b c) (if v = m + 3 then m else m + 3) 2).getD u 0
          = if decode_multiindex u 1 = (List.replicate 6 0).set v 1
            then (if m = 0 then a else if m = 1 then b else c) else 0) →
      (_poly_mul N (_poly_diff N (h2_block N a b c) (if v = m + 3 then m else m + 3) 2)
          (2 - 1) (_poly_diff N G v n) (n - 1)).getD t 0
        = (if m = 0 then a else if m = 1 then b else c)
          * (((decode_multiindex t n).getD v 0 : K) * G.getD t 0) := by
    intro v hv hav
    rw [show (2 : ℕ) - 1 = 1 from rfl]
    have hmono := poly_mul_mono_left N v (n - 1)
      (if m = 0 then a else if m = 1 then b else c)
      (_poly_diff N (h2_block N a b c) (if v = m + 3 then m else m + 3) 2)
      (_poly_diff N G v n) hv (by omega)
      (length_poly_diff N _ _ 2 (by omega))
      (length_poly_diff N G v n hn) hav t (by rwa [hn1])
    rw [hn1] at hmono
    rw [hmono]
    by_cases hpos : 1 ≤ (decode_multiindex t n).getD v 0
    · rw [if_pos hpos]
      have hj0mem : (decode_multiindex t n).set v
          ((decode_multiindex t n).getD v 0 - 1) ∈ tuplesOfSum 6 (n - 1) :=
        decr_mem hv hκmem hpos
      have hj0lt := indexOf_lt_psi hj0mem
      have hdecj0 := decode_indexOf hj0mem
      have hvlen : v < ((decode_multiindex t n).set v
          ((decode_multiindex t n).getD v 0 - 1)).length := by
        rw [List.length_set, hκ6]; exact hv
      have hgd := poly_diff_getD N G v n
        (@List.indexOf (List ℕ) instBEqOfDecidableEq
          ((decode_multiindex t n).set v ((decode_multiindex t n).getD v 0 - 1))
          (tuplesOfSum 6 (n - 1)))
        t hv hn (by omega) hG hj0lt ht ?_
      · rw [hgd, hdecj0, getD_set_self (by rw [hκ6]; exact hv),
          Nat.sub_add_cancel hpos]
      · rw [hdecj0, getD_set_self (by rw [hκ6]; exact hv), List.set_set,
          Nat.sub_add_cancel hpos, set_getD_self (by rw [hκ6]; exact hv)]
    · rw [if_neg hpos]
      have h0 : (decode_multiindex t n).getD v 0 = 0 := by omega
      rw [h0]
      push_cast
      ring
  have hT1 := hmulvar (m + 3) (by omega) (by rw [if_pos rfl]; exact haT1)
  have hT2 := hmulvar m (by omega) (by rw [if_neg (by omega)]; exact haT2)
  rw [if_pos rfl] at hT1
  rw [if_neg (by omega : ¬ m = m + 3)] at hT2
  have hr' : r.length = psi 6 n := by rwa [h2n] at hr
  rw [poisson_step_eq N (h2_block N a b c) 2 G n r m (by omega) hn hr]
  have hT1len : (_poly_mul N (_poly_diff N (h2_block N a b c) m 2) (2 - 1)
      (_poly_diff N G (m + 3) n) (n - 1)).length = r.length := by
    rw [length_poly_mul, hr', show (2 : ℕ) - 1 + (n - 1) = n from by omega]
  have hT2len : (_poly_mul N (_poly_diff N (h2_block N a b c) (m + 3) 2) (2 - 1)
      (_poly_diff N G m n) (n - 1)).length = r.length := by
    rw [length_poly_mul, hr', show (2 : ℕ) - 1 + (n - 1) = n from by omega]
  have htr : t < r.length := by rw [hr']; exact ht
  rw [getD_zipWith_of_lt _ _ _ t
      (by rw [List.length_zipWith, hT1len]; omega) (by rw [hT2len]; omega),
    getD_zipWith_of_lt _ _ _ t (by omega) (by rw [hT1len]; omega)]
  rw [hT1, hT2]
  ring

/-- C2.  For `H_2 = eta0*q1*p1 + eta1*q2*p2 + eta2*q3*p3` and a degree-`n`
polynomial `H` supported on bad positions (`k[0] != k[3]`), with every bad
denominator nonzero, the solver output `G_n` has coefficient
`-H[k] / (eta0*(k3-k0) + eta1*(k4-k1) + eta2*(k5-k2))` at each bad tuple, is
exactly zero at every good position, and `_poly_poisson(H_2, G_n) = -H`
exactly (hence within any tolerance). -/
theorem homological_equation_solution (N n : ℕ) (hN2 : 2 ≤ N) (hnN : n ≤ N)
    (a b c : K) (H : List K) (hH : H.length = psi 6 n)
    (hbad : ∀ t, t < psi 6 n →
      (decode_multiindex t n).getD 0 0 = (decode_multiindex t n).getD 3 0 →
      H.getD t 0 = 0)
    (hres : ∀ t, t < psi 6 n →
      (decode_multiindex t n).getD 0 0 ≠ (decode_multiindex t n).getD 3 0 →
      hom_denom a b c (decode_multiindex t n) ≠ 0) :
    (∀ t, t < psi 6 n →
      (decode_multiindex t n).getD 0 0 ≠ (decode_multiindex t n).getD 3 0 →
      (_solve_homological_equation H n a b c).getD t 0
        = -(H.getD t 0) / hom_denom a b c (decode_multiindex t n))
    ∧ (∀ t, t < psi 6 n →
      (decode_multiindex t n).getD 0 0 = (decode_multiindex t n).getD 3 0 →
      (_solve_homological_equation H n a b c).getD t 0 = 0)
    ∧ _poly_poisson N (h2_block N a b c) 2 (_solve_homological_equation H n a b c) n
        = H.map fun x => -x := by
  refine ⟨?_, ?_, ?_⟩
  · intro t ht hbadt
    rw [solve_hom_getD _ _ _ _ _ _ ht, if_neg hbadt]
  · intro t ht hgood
    rw [solve_hom_getD _ _ _ _ _ _ ht, if_pos hgood]
  · rcases Nat.eq_zero_or_pos n with hn0 | hn
    · subst hn0
      rw [_poly_poisson, if_pos (Or.inr rfl)]
      have hpsi0 : psi 6 0 = 1 := by decide
      refine List.ext_getElem ?_ ?_
      · rw [List.length_replicate, List.length_map]
        omega
      · intro u h1 h2
        have hu0 : u = 0 := by
          rw [List.length_replicate] at h1
          omega
        subst hu0
        have h0lt : 0 < H.length := by rw [List.length_map] at h2; exact h2
        rw [List.getElem_replicate, List.getElem_map]
        have hHg : H[0] = 0 := by
          have := hbad 0 (by decide) (by decide)
          rwa [List.getD_eq_getElem _ _ h0lt] at this
        rw [hHg, neg_zero]
    · have hG : (_solve_homological_equation H n a b c).length = psi 6 n :=
        length_solve_hom H n a b c
      have h2n : 2 + n - 2 = n := by omega
      rw [_poly_poisson, if_neg (by omega)]
      rw [show List.range 3 = [0, 1, 2] from rfl]
      simp only [List.foldl_cons, List.foldl_nil]
      have hr0 : (List.replicate (psi 6 (2 + n - 2)) (0 : K)).length
          = psi 6 (2 + n - 2) := List.length_replicate _ _
      have hr1 : (poisson_step N (h2_block N a b c) 2
          (_solve_homological_equation H n a b c) n
          (List.replicate (psi 6 (2 + n - 2)) 0) 0).length = psi 6 (2 + n - 2) := by
        rw [length_poisson_step N (h2_block N a b c) 2 _ n _ 0 (by omega) hn hr0, hr0]
      have hr2 : (poisson_step N (h2_block N a b c) 2
          (_solve_homological_equation H n a b c) n
          (poisson_step N (h2_block N a b c) 2
            (_solve_homological_equation H n a b c) n
            (List.replicate (psi 6 (2 + n - 2)) 0) 0) 1).length = psi 6 (2 + n - 2) := by
        rw [length_poisson_step N (h2_block N a b c) 2 _ n _ 1 (by omega) hn hr1, hr1]
      refine List.ext_getElem ?_ ?_
      · rw [length_poisson_step N (h2_block N a b c) 2 _ n _ 2 (by omega) hn hr2, hr2,
          List.length_map, hH, h2n]
      · intro u h1 h2
        have hu : u < psi 6 n := by
          rw [List.length_map, hH] at h2
          exact h2
        have huH : u < H.length := by rw [hH]; exact hu
        rw [← List.getD_eq_getElem _ (0 : K) h1, List.getElem_map]
        rw [step_h2_getD N n hN2 hn hnN a b c _ hG 2 (by omega) _ hr2 u hu,
          step_h2_getD N n hN2 hn hnN a b c _ hG 1 (by omega) _ hr1 u hu,
          step_h2_getD N n hN2 hn hnN a b c _ hG 0 (by omega) _ hr0 u hu,
          getD_replicate_zeroK]
        rw [zero_add, if_pos (rfl : (0 : ℕ) = 0), if_neg (by decide : ¬(1 : ℕ) = 0),
          if_pos (rfl : (1 : ℕ) = 1), if_neg (by decide : ¬(2 : ℕ) = 0),
          if_neg (by decide : ¬(2 : ℕ) = 1)]
        have hGget := solve_hom_getD H n a b c u hu
        by_cases hgood : (decode_multiindex u n).getD 0 0
            = (decode_multiindex u n).getD 3 0
        · rw [if_pos hgood] at hGget
          rw [hGget]
          have hHg : H[u] = 0 := by
            have := hbad u hu hgood
            rwa [List.getD_eq_getElem _ _ huH] at this
          rw [hHg]
          ring
        · rw [if_neg hgood] at hGget
          rw [hGget]
          have hD := hres u hu hgood
          have hstep : a * ((((decode_multiindex u n).getD 3 0 : K)
                - ((decode_multiindex u n).getD 0 0 : K))
                * (-(H.getD u 0) / hom_denom a b c (decode_multiindex u n)))
              + b * ((((decode_multiindex u n).getD 4 0 : K)
                - ((decode_multiindex u n).getD 1 0 : K))
                * (-(H.getD u 0) / hom_denom a b c (decode_multiindex u n)))
              + c * ((((decode_multiindex u n).getD 5 0 : K)
                - ((decode_multiindex u n).getD 2 0 : K))
                * (-(H.getD u 0) / hom_denom a b c (decode_multiindex u n)))
              = hom_denom a b c (decode_multiindex u n)
                * (-(H.getD u 0) / hom_denom a b c (decode_multiindex u n)) := by
            rw [hom_denom]
            push_cast
            ring
          rw [hstep, mul_comm, div_mul_cancel₀ _ hD,
            List.getD_eq_getElem _ _ huH]

lemma c2_input_bad_only : ∀ t, t < psi 6 2 →
    (decode_multiindex t 2).getD 0 0 = (decode_multiindex t 2).getD 3 0 →
    ((List.replicate 21 (0 : ℚ)).set 15 3).getD t 0 = 0 := by
  intro t ht hgood
  rw [show psi 6 2 = 21 from by decide] at ht
  interval_cases t <;> first | rfl | exact absurd hgood (by decide)

lemma c2_input_nonresonant : ∀ t, t < psi 6 2 →
    (decode_multiindex t 2).getD 0 0 ≠ (decode_multiindex t 2).getD 3 0 →
    hom_denom (1 : ℚ) 2 4 (decode_multiindex t 2) ≠ 0 := by
  intro t ht hbadt
  rw [show psi 6 2 = 21 from by decide] at ht
  have e3 : decode_multiindex 3 2 = [0, 0, 0, 1, 0, 1] := by decide
  have e4 : decode_multiindex 4 2 = [0, 0, 0, 1, 1, 0] := by decide
  have e5 : decode_multiindex 5 2 = [0, 0, 0, 2, 0, 0] := by decide
  have e8 : decode_multiindex 8 2 = [0, 0, 1, 1, 0, 0] := by decide
  have e12 : decode_multiindex 12 2 = [0, 1, 0, 1, 0, 0] := by decide
  have e15 : decode_multiindex 15 2 = [1, 0, 0, 0, 0, 1] := by decide
  have e16 : decode_multiindex 16 2 = [1, 0, 0, 0, 1, 0] := by decide
  have e18 : decode_multiindex 18 2 = [1, 0, 1, 0, 0, 0] := by decide
  have e19 : decode_multiindex 19 2 = [1, 1, 0, 0, 0, 0] := by decide
  have e20 : decode_multiindex 20 2 = [2, 0, 0, 0, 0, 0] := by decide
  interval_cases t <;>
    first
      | exact absurd (by decide) hbadt
      | norm_num [hom_denom, e3, e4, e5, e8, e12, e15, e16, e18, e19, e20]

/-- Witness for C2 at a concrete input (`n = 2`, `eta = (1, 2, 4)`, one
nonzero bad coefficient). -/
theorem homological_equation_solution_witness :
    (2 ≤ 2 ∧ 2 ≤ 2
      ∧ ((List.replicate 21 (0 : ℚ)).set 15 3).length = psi 6 2
      ∧ (∀ t, t < psi 6 2 →
          (decode_multiindex t 2).getD 0 0 = (decode_multiindex t 2).getD 3 0 →
          ((List.replicate 21 (0 : ℚ)).set 15 3).getD t 0 = 0)
      ∧ (∀ t, t < psi 6 2 →
          (decode_multiindex t 2).getD 0 0 ≠ (decode_multiindex t 2).getD 3 0 →
          hom_denom (1 : ℚ) 2 4 (decode_multiindex t 2) ≠ 0))
    ∧ ((∀ t, t < psi 6 2 →
        (decode_multiindex t 2).getD 0 0 ≠ (decode_multiindex t 2).getD 3 0 →
        (_solve_homological_equation ((List.replicate 21 (0 : ℚ)).set 15 3) 2 1 2 4).getD t 0
          = -(((List.replicate 21 (0 : ℚ)).set 15 3).getD t 0)
            / hom_denom (1 : ℚ) 2 4 (decode_multiindex t 2))
      ∧ (∀ t, t < psi 6 2 →
        (decode_multiindex t 2).getD 0 0 = (decode_multiindex t 2).getD 3 0 →
        (_solve_homological_equation ((List.replicate 21 (0 : ℚ)).set 15 3) 2 1 2 4).getD t 0
          = 0)
      ∧ _poly_poisson 2 (h2_block 2 (1 : ℚ) 2 4) 2
          (_solve_homological_equation ((List.replicate 21 (0 : ℚ)).set 15 3) 2 1 2 4) 2
          = ((List.replicate 21 (0 : ℚ)).set 15 3).map fun x => -x) :=
  ⟨⟨by decide, by decide, by decide, c2_input_bad_only, c2_input_nonresonant⟩,
    homological_equation_solution 2 2 (by decide) (by decide) 1 2 4
      ((List.replicate 21 (0 : ℚ)).set 15 3) (by decide) c2_input_bad_only
      c2_input_nonresonant⟩

end HomologicalSetup

section Clean

variable {K : Type} [Field K] [DecidableEq K]

/-- The comparison `np.abs(x) <= tol` instantiated for rational coefficients
(`np.abs` of a real value is its absolute value). -/
def ratAbsLe (c t : ℚ) : Bool := decide (|c| ≤ t)

/-- `_poly_clean_inplace` of `algorithms/center/polynomial/algebra.py`
(lines 324-349) applied to its own array: each coefficient with
`np.abs(p[i]) <= tol` is set to zero in place; the resulting array value is
returned (mutation is modelled by returning the new value). -/
def _poly_clean_inplace (p : List K) (tol : ℚ) (absLe : K → ℚ → Bool) : List K :=
  p.map fun x => if absLe x tol then 0 else x

/-- The write loop of `_poly_clean` (lines 351-379): for each `i` in
`range(p.length)` write `out[i]`; an out-of-range write on `out` is an
index error (`none`). -/
def clean_go (tol : ℚ) (absLe : K → ℚ → Bool) :
    List K → ℕ → List K → Option (List K)
  | [], _, out => some out
  | x :: ps, i, out =>
      if i < out.length then
        clean_go tol absLe ps (i + 1) (out.set i (if absLe x tol then 0 else x))
      else none

/-- `_poly_clean` of `algorithms/center/polynomial/algebra.py`: out-of-place
cleaning into a caller-supplied buffer `out`. -/
def _poly_clean (p : List K) (tol : ℚ) (out : List K) (absLe : K → ℚ → Bool) :
    Option (List K) :=
  clean_go tol absLe p 0 out

lemma take_set_eq (out : List K) (i : ℕ) (v : K) :
    (out.set i v).take i = out.take i := by
  refine List.ext_getElem (by rw [List.length_take, List.length_take, List.length_set]) ?_
  intro j h1 h2
  have hj : j < i := by
    rw [List.length_take] at h1
    omega
  rw [List.getElem_take, List.getElem_take, List.getElem_set_ne (by omega)]

lemma clean_go_spec (tol : ℚ) (absLe : K → ℚ → Bool) :
    ∀ (ps : List K) (i : ℕ) (out : List K), out.length = i + ps.length →
      clean_go tol absLe ps i out
        = some (out.take i ++ ps.map fun x => if absLe x tol then 0 else x) := by
  intro ps
  induction ps with
  | nil =>
      intro i out hlen
      rw [List.length_nil] at hlen
      rw [clean_go, List.map_nil, List.append_nil]
      rw [show i = out.length from by omega, List.take_length]
  | cons x ps ih =>
      intro i out hlen
      rw [List.length_cons] at hlen
      rw [clean_go, if_pos (by omega)]
      rw [ih (i + 1) _ (by rw [List.length_set]; omega)]
      congr 1
      have hi : i < out.length := by omega
      have hi2 : i < (out.set i (if absLe x tol then 0 else x)).length := by
        rw [List.length_set]; exact hi
      rw [List.take_succ, take_set_eq, List.getElem?_eq_getElem hi2,
        List.getElem_set_self]
      simp

/-- C10.  The out-of-place `_poly_clean` writes exactly the array that
`_poly_clean_inplace` would produce on a copy of `p`: whenever `out` has the
length of `p`, the written buffer equals the in-place result (each
coefficient of magnitude `<= tol` becomes exactly zero, all others are
copied unchanged). -/
theorem poly_clean_out_eq_inplace (p : List K) (tol : ℚ) (out : List K)
    (absLe : K → ℚ → Bool) (hlen : out.length = p.length) :
    _poly_clean p tol out absLe = some (_poly_clean_inplace p tol absLe) := by
  rw [_poly_clean, clean_go_spec tol absLe p 0 out (by omega), List.take_zero,
    List.nil_append, _poly_clean_inplace]

/-- Witness for C10 at a concrete input. -/
theorem poly_clean_out_eq_inplace_witness :
    ([(5 : ℚ), 7]).length = ([(1 : ℚ), 2]).length
    ∧ _poly_clean [(1 : ℚ), 2] (1/10^14) [(5 : ℚ), 7] ratAbsLe
        = some (_poly_clean_inplace [(1 : ℚ), 2] (1/10^14) ratAbsLe) :=
  ⟨by decide, poly_clean_out_eq_inplace [(1 : ℚ), 2] (1/10^14) [(5 : ℚ), 7]
    ratAbsLe (by decide)⟩

/-- The write loop of `_poly_add` (`algebra.py`, lines 12-37): for each `i`
in `range(p.length)`, read `q[i]` and write `out[i] = p[i] + q[i]`; an
out-of-range read or write is an index error (`none`); no validation of any
kind is performed beforehand. -/
def add_go (q : List K) : List K → ℕ → List K → Option (List K)
  | [], _, out => some out
  | x :: ps, i, out =>
      if i < q.length then
        if i < out.length then add_go q ps (i + 1) (out.set i (x + q.getD i 0))
        else none
      else none

/-- `_poly_add` of `algorithms/center/polynomial/algebra.py`. -/
def _poly_add (p q out : List K) : Option (List K) :=
  add_go q p 0 out

/-- The write loop of `_poly_scale` (`algebra.py`, lines 39-64). -/
def scale_go (alpha : K) : List K → ℕ → List K → Option (List K)
  | [], _, out => some out
  | x :: ps, i, out =>
      if i < out.length then scale_go alpha ps (i + 1) (out.set i (alpha * x)) else none

/-- `_poly_scale` of `algorithms/center/polynomial/algebra.py`. -/
def _poly_scale (p : List K) (alpha : K) (out : List K) : Option (List K) :=
  scale_go alpha p 0 out

lemma add_go_ne_none (q : List K) :
    ∀ (ps : List K) (i : ℕ) (out : List K),
      add_go q ps i out ≠ none
        ↔ ps = [] ∨ (i + ps.length ≤ q.length ∧ i + ps.length ≤ out.length) := by
  intro ps
  induction ps with
  | nil =>
      intro i out
      rw [add_go]
      simp
  | cons x ps ih =>
      intro i out
      rw [add_go]
      simp only [List.length_cons]
      by_cases hq : i < q.length
      · rw [if_pos hq]
        by_cases hout : i < out.length
        · rw [if_pos hout, ih (i + 1) (out.set i (x + q.getD i 0))]
          rw [List.length_set]
          constructor
          · rintro (hps | ⟨h1, h2⟩)
            · subst hps
              refine Or.inr ⟨?_, ?_⟩ <;> (simp; omega)
            · refine Or.inr ⟨by omega, by omega⟩
          · rintro (hcon | ⟨h1, h2⟩)
            · exact absurd hcon (by simp)
            · rcases ps with _ | ⟨y, ps⟩
              · exact Or.inl rfl
              · refine Or.inr ⟨?_, ?_⟩ <;> (simp at h1 h2 ⊢; omega)
        · rw [if_neg hout]
          constructor
          · intro hcon
            exact absurd rfl hcon
          · rintro (hcon | ⟨h1, h2⟩)
            · exact absurd hcon (by simp)
            · omega
      · rw [if_neg hq]
        constructor
        · intro hcon
          exact absurd rfl hcon
        · rintro (hcon | ⟨h1, h2⟩)
          · exact absurd hcon (by simp)
          · omega

lemma scale_go_ne_none (alpha : K) :
    ∀ (ps : List K) (i : ℕ) (out : List K),
      scale_go alpha ps i out ≠ none ↔ ps = [] ∨ i + ps.length ≤ out.length := by
  intro ps
  induction ps with
  | nil =>
      intro i out
      rw [scale_go]
      simp
  | cons x ps ih =>
      intro i out
      rw [scale_go]
      simp only [List.length_cons]
      by_cases hout : i < out.length
      · rw [if_pos hout, ih (i + 1) (out.set i (alpha * x))]
        rw [List.length_set]
        constructor
        · rintro (hps | h1)
          · subst hps
            refine Or.inr (by simp; omega)
          · exact Or.inr (by omega)
        · rintro (hcon | h1)
          · exact absurd hcon (by simp)
          · rcases ps with _ | ⟨y, ps⟩
            · exact Or.inl rfl
            · refine Or.inr ?_
              simp at h1 ⊢
              omega
      · rw [if_neg hout]
        constructor
        · intro hcon
          exact absurd rfl hcon
        · rintro (hcon | h1)
          · exact absurd hcon (by simp)
          · omega

/-- C9 (amended).  `_poly_add` and `_poly_scale` perform no length
validation: the loops range over `p`'s indices only, so any call with
`p` no longer than the other arrays returns a result silently, whatever
their lengths; an error occurs exactly when the loop would read or write
past the end of `q` or `out`. -/
theorem poly_add_scale_no_validation (p q out : List K) (alpha : K) :
    (_poly_add p q out ≠ none
      ↔ p = [] ∨ (p.length ≤ q.length ∧ p.length ≤ out.length))
    ∧ (_poly_scale p alpha out ≠ none ↔ p = [] ∨ p.length ≤ out.length) := by
  constructor
  · rw [_poly_add, add_go_ne_none q p 0 out]
    simp
  · rw [_poly_scale, scale_go_ne_none alpha p 0 out]
    simp

/-- Counterexample to C9 as stated: a call with mismatched array lengths
(`p` shorter than `q` and `out`) raises no error and silently returns a
result array. -/
theorem poly_add_mismatch_no_error :
    _poly_add [(1 : ℚ)] [1, 2] [0, 0] = some [2, 0]
    ∧ ([(1 : ℚ)]).length ≠ ([(1 : ℚ), 2]).length := by
  constructor
  · show add_go [(1 : ℚ), 2] [(1 : ℚ)] 0 [0, 0] = some [2, 0]
    rw [add_go, if_pos (by decide), if_pos (by decide), add_go]
    norm_num
  · decide

end Clean

section Restriction

variable {K : Type} [Field K] [DecidableEq K]

/-- `CenterManifold._restrict_to_center_manifold` of `hiten/system/center.py`
(lines 292-307): copy the graded polynomial, then for every degree block and
position set the coefficient to zero when `abs(c) <= tol` or when the decoded
exponent tuple has a nonzero `q1` or `p1` exponent; the copy discipline is
modelled by returning a freshly built list. -/
def _restrict_to_center_manifold (poly_H : List (List K))
    (absLe : K → ℚ → Bool) (tol : ℚ) : List (List K) :=
  (List.range poly_H.length).map fun deg =>
    (List.range (poly_H.getD deg []).length).map fun pos =>
      if absLe ((poly_H.getD deg []).getD pos 0) tol then 0
      else if (decode_multiindex pos deg).getD 0 0 ≠ 0
          ∨ (decode_multiindex pos deg).getD 3 0 ≠ 0 then 0
      else (poly_H.getD deg []).getD pos 0

lemma length_restrict (poly_H : List (List K)) (absLe : K → ℚ → Bool) (tol : ℚ) :
    (_restrict_to_center_manifold poly_H absLe tol).length = poly_H.length := by
  rw [_restrict_to_center_manifold, List.length_map, List.length_range]

lemma restrict_block (poly_H : List (List K)) (absLe : K → ℚ → Bool) (tol : ℚ)
    (deg : ℕ) (hdeg : deg < poly_H.length) :
    (_restrict_to_center_manifold poly_H absLe tol).getD deg []
      = (List.range (poly_H.getD deg []).length).map fun pos =>
          if absLe ((poly_H.getD deg []).getD pos 0) tol then 0
          else if (decode_multiindex pos deg).getD 0 0 ≠ 0
              ∨ (decode_multiindex pos deg).getD 3 0 ≠ 0 then 0
          else (poly_H.getD deg []).getD pos 0 := by
  have hlen : deg < (_restrict_to_center_manifold poly_H absLe tol).length := by
    rw [length_restrict]; exact hdeg
  rw [List.getD_eq_getElem _ _ hlen]
  simp only [_restrict_to_center_manifold]
  rw [List.getElem_map, List.getElem_range]

lemma getD_map_range (f : ℕ → K) (L pos : ℕ) (h : pos < L) :
    ((List.range L).map f).getD pos 0 = f pos := by
  have hl : pos < ((List.range L).map f).length := by
    rw [List.length_map, List.length_range]
    exact h
  rw [List.getD_eq_getElem _ _ hl, List.getElem_map, List.getElem_range]

lemma restrict_getD (poly_H : List (List K)) (absLe : K → ℚ → Bool) (tol : ℚ)
    (deg pos : ℕ) (hdeg : deg < poly_H.length)
    (hpos : pos < (poly_H.getD deg []).length) :
    ((_restrict_to_center_manifold poly_H absLe tol).getD deg []).getD pos 0
      = if absLe ((poly_H.getD deg []).getD pos 0) tol then 0
        else if (decode_multiindex pos deg).getD 0 0 ≠ 0
            ∨ (decode_multiindex pos deg).getD 3 0 ≠ 0 then 0
        else (poly_H.getD deg []).getD pos 0 := by
  rw [restrict_block poly_H absLe tol deg hdeg]
  have hplen : pos < ((List.range (poly_H.getD deg []).length).map fun pos =>
      if absLe ((poly_H.getD deg []).getD pos 0) tol then 0
      else if (decode_multiindex pos deg).getD 0 0 ≠ 0
          ∨ (decode_multiindex pos deg).getD 3 0 ≠ 0 then 0
      else (poly_H.getD deg []).getD pos 0).length := by
    rw [List.length_map, List.length_range]
    exact hpos
  rw [List.getD_eq_getElem _ _ hplen, List.getElem_map, List.getElem_range]

/-- C3 (amended).  The center-manifold restriction zeroes exactly those
coefficients whose magnitude is at most the cleaning tolerance or whose
decoded exponent tuple has `k[0] != 0` or `k[3] != 0`, and copies every
other coefficient unchanged to a freshly allocated output of the same
shape (the input is not mutated). -/
theorem restrict_center_manifold_spec (poly_H : List (List K))
    (absLe : K → ℚ → Bool) (tol : ℚ) (deg pos : ℕ) (hdeg : deg < poly_H.length)
    (hpos : pos < (poly_H.getD deg []).length) :
    (_restrict_to_center_manifold poly_H absLe tol).length = poly_H.length
    ∧ ((_restrict_to_center_manifold poly_H absLe tol).getD deg []).length
        = (poly_H.getD deg []).length
    ∧ ((_restrict_to_center_manifold poly_H absLe tol).getD deg []).getD pos 0
        = (if absLe ((poly_H.getD deg []).getD pos 0) tol = true
              ∨ (decode_multiindex pos deg).getD 0 0 ≠ 0
              ∨ (decode_multiindex pos deg).getD 3 0 ≠ 0
           then 0 else (poly_H.getD deg []).getD pos 0) := by
  refine ⟨length_restrict poly_H absLe tol, ?_, ?_⟩
  · rw [restrict_block poly_H absLe tol deg hdeg, List.length_map, List.length_range]
  · rw [restrict_getD poly_H absLe tol deg pos hdeg hpos]
    by_cases h1 : absLe ((poly_H.getD deg []).getD pos 0) tol
    · rw [if_pos h1, if_pos (Or.inl h1)]
    · rw [if_neg h1]
      by_cases h2 : (decode_multiindex pos deg).getD 0 0 ≠ 0
          ∨ (decode_multiindex pos deg).getD 3 0 ≠ 0
      · rw [if_pos h2, if_pos (Or.inr h2)]
      · rw [if_neg h2, if_neg (by
          rintro (hcon | hcon)
          · exact h1 hcon
          · exact h2 hcon)]

/-- Witness for C3 (amended) at a concrete input. -/
theorem restrict_center_manifold_spec_witness :
    (0 < ([[(1 : ℚ), 2]]).length ∧ 0 < (([[(1 : ℚ), 2]]).getD 0 []).length)
    ∧ ((_restrict_to_center_manifold [[(1 : ℚ), 2]] ratAbsLe (1/10^14)).length
        = ([[(1 : ℚ), 2]]).length
      ∧ ((_restrict_to_center_manifold [[(1 : ℚ), 2]] ratAbsLe (1/10^14)).getD 0 []).length
        = (([[(1 : ℚ), 2]]).getD 0 []).length
      ∧ ((_restrict_to_center_manifold [[(1 : ℚ), 2]] ratAbsLe (1/10^14)).getD 0 []).getD 0 0
        = (if ratAbsLe ((([[(1 : ℚ), 2]]).getD 0 []).getD 0 0) (1/10^14) = true
              ∨ (decode_multiindex 0 0).getD 0 0 ≠ 0
              ∨ (decode_multiindex 0 0).getD 3 0 ≠ 0
           then 0 else (([[(1 : ℚ), 2]]).getD 0 []).getD 0 0)) :=
  ⟨⟨by decide, by decide⟩,
    restrict_center_manifold_spec [[(1 : ℚ), 2]] ratAbsLe (1/10^14) 0 0
      (by decide) (by decide)⟩

/-- Counterexample to C3 as stated: a nonzero coefficient at a center
position (`k[0] = k[3] = 0`) of magnitude below the cleaning tolerance is
zeroed by the restriction rather than copied unchanged. -/
theorem restrict_tiny_coefficient_zeroed :
    _restrict_to_center_manifold [[(1 : ℚ)/10^20]] ratAbsLe (1/10^14) = [[0]]
    ∧ (1 : ℚ)/10^20 ≠ 0
    ∧ (decode_multiindex 0 0).getD 0 0 = 0
    ∧ (decode_multiindex 0 0).getD 3 0 = 0 := by
  have habs : ratAbsLe ((1 : ℚ)/10^20) (1/10^14) = true := by
    rw [ratAbsLe, decide_eq_true_eq, abs_of_nonneg (by norm_num)]
    norm_num
  refine ⟨?_, by norm_num, by decide, by decide⟩
  refine List.ext_getElem (by rw [length_restrict]; rfl) ?_
  intro d h1 h2
  have hd0 : d = 0 := by
    rw [length_restrict] at h1
    simpa using h1
  subst hd0
  have hblock := restrict_block [[(1 : ℚ)/10^20]] ratAbsLe (1/10^14) 0 (by decide)
  rw [← List.getD_eq_getElem _ ([] : List ℚ) h1, hblock]
  have : ([[(1 : ℚ)/10^20]]).getD 0 [] = [(1 : ℚ)/10^20] := rfl
  rw [this]
  refine List.ext_getElem (by simp) ?_
  intro u hu1 hu2
  have hu0 : u = 0 := by simpa using hu1
  subst hu0
  rw [List.getElem_map, List.getElem_range]
  rw [show ([(1 : ℚ)/10^20]).getD 0 0 = (1 : ℚ)/10^20 from rfl, habs, if_pos rfl]
  rfl

lemma clean_restrict_pointwise (absLe : K → ℚ → Bool) (tol : ℚ) (cc : K)
    (bb : Prop) [Decidable bb] :
    (if absLe (if absLe cc tol then (0 : K) else if bb then 0 else cc) tol then (0 : K)
     else if bb then 0 else if absLe cc tol then 0 else if bb then 0 else cc)
      = if absLe cc tol then 0 else if bb then 0 else cc := by
  by_cases h1a : absLe cc tol = true <;>
    by_cases h0 : absLe (0 : K) tol = true <;>
      by_cases hb : bb <;>
        simp [h1a, h0, hb]

/-- C7.  The center-manifold restriction is idempotent, and every nonzero
coefficient of its output sits at an exponent tuple with `k[0] = 0` and
`k[3] = 0`. -/
theorem restrict_idempotent (poly_H : List (List K)) (absLe : K → ℚ → Bool)
    (tol : ℚ) :
    _restrict_to_center_manifold (_restrict_to_center_manifold poly_H absLe tol)
        absLe tol
      = _restrict_to_center_manifold poly_H absLe tol
    ∧ (∀ deg pos : ℕ,
        ((_restrict_to_center_manifold poly_H absLe tol).getD deg []).getD pos 0 ≠ 0 →
        (decode_multiindex pos deg).getD 0 0 = 0
          ∧ (decode_multiindex pos deg).getD 3 0 = 0) := by
  constructor
  · refine List.ext_getElem (by rw [length_restrict, length_restrict]) ?_
    intro deg h1 h2
    have hdeg : deg < poly_H.length := by
      rw [length_restrict, length_restrict] at h1
      exact h1
    have hdeg2 : deg < (_restrict_to_center_manifold poly_H absLe tol).length := by
      rw [length_restrict]; exact hdeg
    rw [← List.getD_eq_getElem _ ([] : List K) h1, ← List.getD_eq_getElem _ ([] : List K) h2,
      restrict_block _ absLe tol deg hdeg2, restrict_block poly_H absLe tol deg hdeg,
      List.length_map, List.length_range]
    refine List.map_congr_left ?_
    intro pos hpos
    have hpos2 : pos < (poly_H.getD deg []).length := List.mem_range.mp hpos
    rw [getD_map_range _ _ pos hpos2]
    exact clean_restrict_pointwise absLe tol ((poly_H.getD deg []).getD pos 0) _
  · intro deg pos hne
    by_cases hdeg : deg < poly_H.length
    · by_cases hpos : pos < (poly_H.getD deg []).length
      · rw [restrict_getD poly_H absLe tol deg pos hdeg hpos] at hne
        by_cases h1a : absLe ((poly_H.getD deg []).getD pos 0) tol
        · rw [if_pos h1a] at hne
          exact absurd rfl hne
        · rw [if_neg h1a] at hne
          by_cases hb : (decode_multiindex pos deg).getD 0 0 ≠ 0
              ∨ (decode_multiindex pos deg).getD 3 0 ≠ 0
          · rw [if_pos hb] at hne
            exact absurd rfl hne
          · push_neg at hb
            exact hb
      · exfalso
        apply hne
        rw [restrict_block poly_H absLe tol deg hdeg,
          List.getD_eq_default _ _ (by rw [List.length_map, List.length_range]; omega)]
    · exfalso
      apply hne
      have hout : (_restrict_to_center_manifold poly_H absLe tol).getD deg [] = [] :=
        List.getD_eq_default _ _ (by rw [length_restrict]; omega)
      rw [hout]
      rfl

end Restriction

section Substitution

variable {K : Type} [Field K] [DecidableEq K]

/-- Modelled from the spec: `polynomial_zero_list` of the missing
`operations.py`: a graded polynomial of `max_deg + 1` zero blocks, block `d`
sized `psi[N_VARS, d]`. -/
def polynomial_zero_list (max_deg : ℕ) : List (List K) :=
  (List.range (max_deg + 1)).map fun d => List.replicate (psi 6 d) 0

/-- Modelled from the spec: `polynomial_variable` of the missing
`operations.py`: the graded polynomial of variable `j`, a `1` at the encoded
position of `e_j` in the degree-1 block. -/
def polynomial_variable (N j max_deg : ℕ) : List (List K) :=
  let z : List (List K) := polynomial_zero_list max_deg
  match encode_multiindex N ((List.replicate 6 0).set j 1) 1 with
  | some idx => z.set 1 ((z.getD 1 []).set idx 1)
  | none => z

/-- Modelled from the spec: `polynomial_add_inplace` of the missing
`operations.py`: `acc[d] += scale * other[d]` for every degree block
(mutation is modelled by returning the new value). -/
def polynomial_add_inplace (acc other : List (List K)) (scale : K) : List (List K) :=
  (List.range acc.length).map fun d =>
    List.zipWith (fun x y => x + scale * y) (acc.getD d []) (other.getD d [])

/-- Modelled from the spec: `polynomial_multiply` of the missing
`operations.py`: the graded product truncated at `max_deg`, block `d` being
the sum over `d1 + d2 = d` of `_poly_mul` of the factor blocks. -/
def polynomial_multiply (N : ℕ) (p q : List (List K)) (max_deg : ℕ) : List (List K) :=
  (List.range (max_deg + 1)).map fun d =>
    (List.range (d + 1)).foldl (fun acc d1 =>
      List.zipWith (· + ·) acc
        (_poly_mul N (p.getD d1 []) d1 (q.getD (d - d1) []) (d - d1)))
      (List.replicate (psi 6 d) 0)

/-- Modelled from the spec: `polynomial_power` of the missing
`operations.py`: iterated graded multiplication, power 0 being the constant
unit polynomial. -/
def polynomial_power (N : ℕ) (base : List (List K)) (k max_deg : ℕ) : List (List K) :=
  match k with
  | 0 => (polynomial_zero_list max_deg).set 0
      ((List.replicate (psi 6 0) (0 : K)).set 0 1)
  | kk + 1 => polynomial_multiply N (polynomial_power N base kk max_deg) base max_deg

/-- Modelled from the spec: `polynomial_clean` of the missing
`operations.py`: zero every coefficient of magnitude at most `tol`,
out of place, block by block. -/
def polynomial_clean (p : List (List K)) (tol : ℚ) (absLe : K → ℚ → Bool) :
    List (List K) :=
  p.map fun block => block.map fun x => if absLe x tol then 0 else x

/-- `_linear_variable_polys` of `algorithms/center/transforms.py` (lines
18-57): the graded polynomials `L_i = sum_j C[i,j] * var_j`, skipping zero
matrix entries. -/
def _linear_variable_polys (N : ℕ) (C : List (List K)) (max_deg : ℕ) :
    List (List (List K)) :=
  (List.range 6).map fun i =>
    (List.range 6).foldl (fun acc j =>
      if (C.getD i []).getD j 0 = 0 then acc
      else polynomial_add_inplace acc (polynomial_variable N j max_deg)
        ((C.getD i []).getD j 0))
      (polynomial_zero_list max_deg)

/-- `substitute_linear` of `algorithms/center/transforms.py` (lines 60-121):
for every nonzero coefficient of every degree block, build the product of
the transformed-variable polynomials raised to the decoded exponents,
accumulate into the output, and pass the result through `polynomial_clean`
with tolerance `1e-14`. -/
def substitute_linear (N : ℕ) (poly_old C : List (List K)) (max_deg : ℕ)
    (absLe : K → ℚ → Bool) : List (List K) :=
  let var_polys := _linear_variable_polys N C max_deg
  let poly_new := (List.range (max_deg + 1)).foldl (fun acc deg =>
    let p := poly_old.getD deg []
    if p.any (fun coeff => decide (coeff ≠ 0)) then
      (List.range p.length).foldl (fun acc2 pos =>
        if p.getD pos 0 = 0 then acc2
        else
          let term0 := (polynomial_zero_list max_deg).set 0
            ((List.replicate (psi 6 0) (0 : K)).set 0 (p.getD pos 0))
          let term := (List.range 6).foldl (fun tacc i_var =>
            if (decode_multiindex pos deg).getD i_var 0 = 0 then tacc
            else polynomial_multiply N tacc
              (polynomial_power N (var_polys.getD i_var [])
                ((decode_multiindex pos deg).getD i_var 0) max_deg) max_deg) term0
          polynomial_add_inplace acc2 term 1) acc
    else acc) (polynomial_zero_list max_deg)
  polynomial_clean poly_new (1/10^14) absLe

lemma polynomial_clean_getD (p : List (List K)) (tol : ℚ) (absLe : K → ℚ → Bool)
    (d i : ℕ)
    (h : absLe (((polynomial_clean p tol absLe).getD d []).getD i 0) tol = true) :
    ((polynomial_clean p tol absLe).getD d []).getD i 0 = 0 := by
  by_cases hd : d < p.length
  · have hd2 : d < (polynomial_clean p tol absLe).length := by
      simp only [polynomial_clean, List.length_map]; exact hd
    have hblock : (polynomial_clean p tol absLe).getD d []
        = (p.getD d []).map fun x => if absLe x tol then 0 else x := by
      rw [List.getD_eq_getElem _ _ hd2]
      simp only [polynomial_clean]
      rw [List.getElem_map, List.getD_eq_getElem _ _ hd]
    rw [hblock] at h ⊢
    by_cases hi : i < (p.getD d []).length
    · have hi2 : i < ((p.getD d []).map fun x => if absLe x tol then 0 else x).length := by
        rw [List.length_map]; exact hi
      rw [List.getD_eq_getElem _ _ hi2, List.getElem_map] at h ⊢
      by_cases hx : absLe ((p.getD d []).getD i 0) tol = true
      · rw [List.getD_eq_getElem _ _ hi] at hx
        rw [if_pos hx]
      · rw [List.getD_eq_getElem _ _ hi] at hx
        rw [if_neg hx] at h
        exact absurd h hx
    · rw [List.getD_eq_default _ _ (by rw [List.length_map]; omega)]
  · have : (polynomial_clean p tol absLe).getD d [] = [] :=
      List.getD_eq_default _ _ (by simp only [polynomial_clean, List.length_map]; omega)
    rw [this]
    rfl

/-- C8.  The output of `substitute_linear` is cleaned at tolerance `1e-14`:
any coefficient of the returned graded polynomial whose magnitude is at most
`1e-14` is exactly zero (no nonzero coefficient of magnitude below the
tolerance survives). -/
theorem substitute_linear_cleaned (N : ℕ) (poly_old C : List (List K))
    (max_deg : ℕ) (absLe : K → ℚ → Bool) (d i : ℕ)
    (h : absLe (((substitute_linear N poly_old C max_deg absLe).getD d []).getD i 0)
      (1/10^14) = true) :
    ((substitute_linear N poly_old C max_deg absLe).getD d []).getD i 0 = 0 :=
  polynomial_clean_getD _ (1/10^14) absLe d i h

/-- Witness for C8 at a concrete input. -/
theorem substitute_linear_cleaned_witness :
    ((fun (_ : ℚ) (_ : ℚ) => true)
        (((substitute_linear 0 [[(1 : ℚ)]] [] 0 (fun _ _ => true)).getD 0 []).getD 0 0)
        (1/10^14) = true)
    ∧ ((substitute_linear 0 [[(1 : ℚ)]] [] 0 (fun _ _ => true)).getD 0 []).getD 0 0 = 0 :=
  ⟨rfl, substitute_linear_cleaned 0 [[(1 : ℚ)]] [] 0 (fun _ _ => true) 0 0 rfl⟩

end Substitution

end CR3BP
